import Mathlib

/-!
Verification of the reactive signal engine of the `wasmadeus` repository.

The development shallowly embeds the core of the signal subsystem:

* `src/src/signal/error.rs` — the error types `SignalUpdatingError` and
  `SignalGetError`.
* `src/src/signal/raw/broadcast.rs` — `Broadcast<T>`: the subscriber
  registry with its `State` tag (`Idling | Notifying | Subscribing`),
  monotonic ids, lazy unsubscription (`needs_retain`) and the index-based
  notification walk.
* `src/src/signal/raw/mod.rs` — `RawSignal<T>`: a `Broadcast` plus a
  `Rc<RefCell<Option<T>>>` data cell; `try_set`, `try_mutate`, `try_get`,
  `raw_for_each`, `notify_all`, `unsubscribe`.
* `src/src/signal/mod.rs` — the public `Signal`/`SignalMut` layer:
  `for_each`/`for_each_inner`/`for_each_forever`, `Unsubscriber`, and the
  composition operators built on `compose`.

The running state of one signal is a `World`.  The `RefCell` borrow flag of
the data cell is modelled by `sharedBorrows` (the number of outstanding
shared borrows) and `mutBorrow` (an exclusive borrow).  Subscriber callbacks
are arbitrary Rust closures; they are embedded as programs in the small
action language `Act`, whose actions are exactly the signal operations a
callback can perform on its own signal (`try_set`, `try_mutate`,
`for_each`-style subscription, unsubscription through a token).  The
interpreter `step` is indexed by fuel; running out of fuel sets the `stuck`
flag, and theorems about completed runs hypothesise that the result is not
stuck.  Every invocation of a subscriber callback is recorded in the
`log` as an `Event.invoke id value` entry, so notification behaviour is the
list of `invoke` events of a run.
-/

namespace Wasmadeus

/-- Error returned by `try_set` / `try_mutate`, from `src/src/signal/error.rs`:
`pub struct SignalUpdatingError;` (a unit struct — the single "already
updating" error kind used by all fallible writes). -/
inductive SignalUpdatingError : Type where
  | mk : SignalUpdatingError
deriving DecidableEq, Repr

/-- Error returned by `try_get`, from `src/src/signal/error.rs`:
`pub enum SignalGetError { Uninit, Updating }`. -/
inductive SignalGetError : Type where
  | uninit : SignalGetError
  | updating : SignalGetError
deriving DecidableEq, Repr

/-- The `State` enum of `Broadcast` in `src/src/signal/raw/broadcast.rs`:
`Idling | Notifying | Subscribing`. -/
inductive BState : Type where
  | idling : BState
  | notifying : BState
  | subscribing : BState
deriving DecidableEq, Repr

/-- A subscriber callback, embedded as a program of signal actions.  Each
constructor corresponds to an operation a Rust closure can perform on the
signal that notifies it:
`trySet` is `RawSignal::try_set`, `tryMutate` is `RawSignal::try_mutate`
with a pure in-place update, `forEach` is `Signal::for_each` (registering a
nested callback and receiving an `Unsubscriber` token; this also covers
`for_each_inner` and `for_each_forever`, which register through the same
`raw_for_each` and differ only in who keeps the token), and `unsubscribe`
is `Unsubscriber::unsubscribe` on the token stored in the given slot. -/
inductive Act (T : Type) : Type where
  | trySet (v : T) : Act T
  | tryMutate (f : T → T) : Act T
  | forEach (prog : List (Act T)) : Act T
  | unsubscribe (slot : Nat) : Act T

/-- A registry entry, from `struct Subscriber<T>` in
`src/src/signal/raw/broadcast.rs`: id, active flag, and the notify closure
(embedded as its action program). -/
structure Subscriber (T : Type) : Type where
  id : Nat
  active : Bool
  prog : List (Act T)

/-- Observable events of a run: `invoke id v` records one invocation of the
subscriber with the given id, passing the value `v` by reference; the
remaining events record the result a callback received from a nested
`try_set` / `try_mutate` call (the error is `SignalUpdatingError`, the only
error those return). -/
inductive Event (T : Type) : Type where
  | invoke (id : Nat) (v : T) : Event T
  | setOk : Event T
  | setErr : Event T
  | mutOk : Event T
  | mutErr : Event T
deriving DecidableEq, Repr

/-- The complete state of one `RawSignal<T>` (with its `Broadcast<T>`),
together with the bookkeeping of the embedding.

Fields of `Broadcast<T>`: `bstate` (the `State` cell), `nextId`
(`next_id`), `needsRetain` (`needs_retain`), `subs` (`subscribers`).
Fields of the `RefCell<Option<T>>` data cell: `data` is the contents,
`sharedBorrows` counts outstanding shared borrows and `mutBorrow` marks an
exclusive borrow (`try_borrow` fails iff `mutBorrow`; `try_borrow_mut`
fails iff `mutBorrow ∨ 0 < sharedBorrows`).
`tokens` holds every `Unsubscriber` in existence, by slot: `some id` for a
live token of subscriber `id`, `none` once consumed (its inner `Option` was
taken).  `log` is the ghost event log, and `stuck` marks a run that ran out
of fuel. -/
structure World (T : Type) : Type where
  bstate : BState
  nextId : Nat
  needsRetain : Bool
  subs : List (Subscriber T)
  sharedBorrows : Nat
  mutBorrow : Bool
  data : Option T
  tokens : List (Option Nat)
  log : List (Event T)
  stuck : Bool

variable {T : Type}

/-- Whether `RefCell::try_borrow_mut` on the data cell would fail. -/
def World.busy (w : World T) : Prop :=
  w.mutBorrow = true ∨ 0 < w.sharedBorrows

instance (w : World T) : Decidable w.busy := by
  unfold World.busy; infer_instance

/-- Result of `RawSignal::try_set` (`src/src/signal/raw/mod.rs`, lines
63–69), determined by the pre-state: `try_borrow_mut` fails iff the cell is
borrowed. -/
def setResult (w : World T) : Except SignalUpdatingError Unit :=
  if w.busy then .error .mk else .ok ()

/-- Result of `RawSignal::try_mutate` (`src/src/signal/raw/mod.rs`, lines
72–81): fails if the cell is borrowed (`try_borrow_mut`), otherwise if the
cell holds no value (`data.as_mut().ok_or(SignalUpdatingError)`). -/
def mutateResult (w : World T) : Except SignalUpdatingError Unit :=
  if w.busy then .error .mk
  else match w.data with
    | none => .error .mk
    | some _ => .ok ()

/-- `RawSignal::try_get` (`src/src/signal/raw/mod.rs`, lines 89–95):
`try_borrow` fails iff an exclusive borrow is outstanding (then
`SignalGetError::Updating`); an empty cell gives `SignalGetError::Uninit`;
otherwise the value is cloned and returned, with no state change (the
function does not modify the world). -/
def tryGet (w : World T) : Except SignalGetError T :=
  if w.mutBorrow then .error .updating
  else match w.data with
    | none => .error .uninit
    | some v => .ok v

/-- Deactivate the entry at the given index (`subscriber.active.set(false)`). -/
def deactivateAt : List (Subscriber T) → Nat → List (Subscriber T)
  | [], _ => []
  | s :: rest, 0 => { s with active := false } :: rest
  | s :: rest, n + 1 => s :: deactivateAt rest n

/-- `Broadcast::unsubscribe` (`src/src/signal/raw/broadcast.rs`, lines
168–185).  The `binary_search_by_key(&id, Subscriber::id)` of the source,
which relies on the ids being in increasing order, is rendered as a lookup
of the entry with that id.  Found while `Idling`: the entry is removed
physically; otherwise it is deactivated and a retain pass is owed. -/
def rawUnsubscribe (id : Nat) (w : World T) : World T :=
  match w.subs.findIdx? (fun s => s.id == id) with
  | none => w
  | some index =>
    match w.bstate with
    | .idling => { w with subs := w.subs.eraseIdx index }
    | _ => { w with subs := deactivateAt w.subs index, needsRetain := true }

/-- `Unsubscriber::unsubscribe` acting on a token slot
(`src/src/signal/mod.rs`, lines 280–286): if the slot still holds an id the
token is consumed (`self.0.take()`), the weak reference upgrade succeeds
(the signal of this world is alive), and `RawSignal::unsubscribe`
delegates to `Broadcast::unsubscribe`. -/
def tokenUnsub (slot : Nat) (w : World T) : World T :=
  match w.tokens[slot]? with
  | some (some id) => rawUnsubscribe id { w with tokens := w.tokens.set slot none }
  | _ => w

/-- `Broadcast::retain` (`src/src/signal/raw/broadcast.rs`, lines 83–88):
`if needs_retain.replace(false) { subscribers.retain(Subscriber::active) }`. -/
def retain (w : World T) : World T :=
  if w.needsRetain then
    { w with needsRetain := false, subs := w.subs.filter (fun s => s.active) }
  else w

/-- The pending computations of the interpreter; each constructor names the
source function it executes. -/
inductive Job (T : Type) : Type where
  | prog (v : T) (acts : List (Act T)) : Job T
  | act (v : T) (a : Act T) : Job T
  | set (v : T) : Job T
  | mutate (f : T → T) : Job T
  | notifyAll : Job T
  | bnotify (v : T) : Job T
  | loop (v : T) (i : Nat) : Job T
  | forE (prog : List (Act T)) : Job T
  | push (id : Nat) (prog : List (Act T)) (value : Option T) : Job T

/-- Event recording the result a callback received from a nested
`try_set`. -/
def setEvent : Except SignalUpdatingError Unit → Event T
  | .ok _ => .setOk
  | .error _ => .setErr

/-- Event recording the result a callback received from a nested
`try_mutate`. -/
def mutEvent : Except SignalUpdatingError Unit → Event T
  | .ok _ => .mutOk
  | .error _ => .mutErr

/-- The fuel-indexed interpreter.  Each `Job` case is the body of the
corresponding source function:

* `set v` — `RawSignal::try_set`: `try_borrow_mut` (fails iff the cell is
  borrowed), replace the value, drop the borrow, `notify_all`.
* `mutate f` — `RawSignal::try_mutate`: same borrow check, then the in-place
  update requires a present value, drop the borrow, `notify_all`.
* `notifyAll` — `RawSignal::notify_all`: take a shared borrow of the data
  (held across the whole broadcast walk), `broadcast.notify(value)`,
  release the borrow.  The `data.as_ref().unwrap()` cannot fail at its call
  sites (a write just succeeded); the `none` branch is unreachable there.
* `bnotify v` — `Broadcast::notify`: return at once unless `Idling`; set
  `Notifying`; walk; `retain`; set `Idling`.
* `loop v i` — the index-based `while i < subscribers.len()` walk: re-reads
  the length each iteration, skips inactive entries, invokes active ones.
* `prog` / `act` — one callback invocation running its actions in order;
  nested `try_set`/`try_mutate` results are recorded in the log.
* `act (forEach prog)` — `Signal::for_each`: a fresh token slot is created
  for the subscriber about to receive id `nextId`, then `raw_for_each`.
* `forE prog` — `RawSignal::raw_for_each`: draw the id, `try_borrow` the
  data (fails iff exclusively borrowed; the borrow is held across
  `push_subscriber`), pass the current contents as the immediate value.
* `push id prog value` — `Broadcast::push_subscriber`: append the entry;
  with a value present, `Idling` enters the transient `Subscribing` state
  around the immediate invocation, `Notifying` suppresses the immediate
  invocation (the in-progress walk will reach the new entry), and
  `Subscribing` invokes directly.

Exhausted fuel sets `stuck`; a stuck world passes through unchanged, so
`stuck = false` of a result means the whole run completed. -/
def step : Nat → Job T → World T → World T
  | 0, _, w => if w.stuck then w else { w with stuck := true }
  | fuel + 1, t, w =>
    if w.stuck then w
    else
      match t with
      | .prog v acts =>
        match acts with
        | [] => w
        | a :: rest => step fuel (.prog v rest) (step fuel (.act v a) w)
      | .act v a =>
        match a with
        | .trySet v2 =>
          let r := setResult w
          let w1 := step fuel (.set v2) w
          if w1.stuck then w1 else { w1 with log := w1.log ++ [setEvent r] }
        | .tryMutate f =>
          let r := mutateResult w
          let w1 := step fuel (.mutate f) w
          if w1.stuck then w1 else { w1 with log := w1.log ++ [mutEvent r] }
        | .forEach prog =>
          step fuel (.forE prog) { w with tokens := w.tokens ++ [some w.nextId] }
        | .unsubscribe slot => tokenUnsub slot w
      | .set v =>
        if w.busy then w
        else step fuel .notifyAll { w with data := some v }
      | .mutate f =>
        if w.busy then w
        else
          match w.data with
          | none => w
          | some x => step fuel .notifyAll { w with data := some (f x) }
      | .notifyAll =>
        match w.data with
        | none => w
        | some v =>
          let w1 := step fuel (.bnotify v) { w with sharedBorrows := w.sharedBorrows + 1 }
          if w1.stuck then w1 else { w1 with sharedBorrows := w1.sharedBorrows - 1 }
      | .bnotify v =>
        if w.bstate ≠ .idling then w
        else
          let w1 := step fuel (.loop v 0) { w with bstate := .notifying }
          if w1.stuck then w1 else { retain w1 with bstate := .idling }
      | .loop v i =>
        match w.subs[i]? with
        | none => w
        | some s =>
          let w1 :=
            if s.active then
              step fuel (.prog v s.prog) { w with log := w.log ++ [.invoke s.id v] }
            else w
          step fuel (.loop v (i + 1)) w1
      | .forE prog =>
        let id := w.nextId
        let w0 := { w with nextId := id + 1 }
        if w0.mutBorrow then step fuel (.push id prog none) w0
        else
          let w1 := step fuel (.push id prog w0.data)
            { w0 with sharedBorrows := w0.sharedBorrows + 1 }
          if w1.stuck then w1 else { w1 with sharedBorrows := w1.sharedBorrows - 1 }
      | .push id prog value =>
        let w0 := { w with subs := w.subs ++ [⟨id, true, prog⟩] }
        match value with
        | none => w0
        | some v =>
          match w0.bstate with
          | .idling =>
            let w1 := step fuel (.prog v prog)
              { w0 with bstate := .subscribing, log := w0.log ++ [.invoke id v] }
            if w1.stuck then w1 else { w1 with bstate := .idling }
          | .notifying => w0
          | .subscribing =>
            step fuel (.prog v prog) { w0 with log := w0.log ++ [.invoke id v] }

/-- `RawSignal::try_set` as the public entry point: the result is decided
by the pre-state borrow check, and on success the write and notification
pass run. -/
def trySet (fuel : Nat) (v : T) (w : World T) :
    Except SignalUpdatingError Unit × World T :=
  (setResult w, step fuel (.set v) w)

/-- `RawSignal::try_mutate` as the public entry point. -/
def tryMutate (fuel : Nat) (f : T → T) (w : World T) :
    Except SignalUpdatingError Unit × World T :=
  (mutateResult w, step fuel (.mutate f) w)

/-- `SignalMut::set` — `self.try_set(new_value).unwrap()`: panics (no
result world) exactly when `try_set` fails. -/
def setOp (fuel : Nat) (v : T) (w : World T) : Option (World T) :=
  match trySet fuel v w with
  | (.ok _, w1) => some w1
  | (.error _, _) => none

/-- `SignalMut::mutate` — `self.try_mutate(mutate).unwrap()`. -/
def mutateOp (fuel : Nat) (f : T → T) (w : World T) : Option (World T) :=
  match tryMutate fuel f w with
  | (.ok _, w1) => some w1
  | (.error _, _) => none

/-- `Signal::for_each` (`src/src/signal/mod.rs`, lines 147–153): register
the callback through `raw_for_each` and return the `Unsubscriber` token;
the token occupies the next free slot and references the id the new
subscriber receives. -/
def forEachOp (fuel : Nat) (prog : List (Act T)) (w : World T) : Nat × World T :=
  (w.tokens.length,
    step fuel (.forE prog) { w with tokens := w.tokens ++ [some w.nextId] })

/-- An `Unsubscriber<T>` held outside any signal
(`src/src/signal/mod.rs`, lines 270–297): `Option` of a weak reference
paired with the subscriber id; the weak reference is represented by
whether the signal's inner `RawSignal` still exists. -/
structure UnsubToken : Type where
  inner : Option Nat

/-- `Unsubscriber::unsubscribe` against a possibly destroyed signal:
`self.0.take()` consumes the token; `weak.upgrade()` fails silently when
the signal is gone (`none`), otherwise `RawSignal::unsubscribe` runs. -/
def unsubRun (u : UnsubToken) (sig : Option (World T)) :
    UnsubToken × Option (World T) :=
  match u.inner with
  | none => (u, sig)
  | some id =>
    (⟨none⟩,
      match sig with
      | none => none
      | some w => some (rawUnsubscribe id w))

/-- Ids of the registry entries are strictly increasing (the invariant the
source's `binary_search_by_key` relies on: ids are drawn from the monotonic
`next_id` counter and entries are appended in order). -/
def sortedIdsB : List (Subscriber T) → Bool
  | [] => true
  | [_] => true
  | a :: b :: rest => decide (a.id < b.id) && sortedIdsB (b :: rest)

/-- Every registry id is below the `next_id` counter. -/
def allLtB (l : List (Subscriber T)) (n : Nat) : Bool :=
  l.all (fun s => decide (s.id < n))

/-- Number of `invoke` events for subscriber `k` in a log. -/
def countInvoke (k : Nat) (log : List (Event T)) : Nat :=
  (log.filter (fun e =>
    match e with
    | .invoke j _ => j == k
    | _ => false)).length

/-- Whether a registry holds an active entry with the given id. -/
def hasActiveId (k : Nat) (l : List (Subscriber T)) : Bool :=
  l.any (fun s => s.id == k && s.active)

/-- Whether a program (or any program it registers through a nested
`forEach`) uses the token in the given slot. -/
def mentionsSlot (j : Nat) : List (Act T) → Bool
  | [] => false
  | .unsubscribe s :: rest => s == j || mentionsSlot j rest
  | .forEach p :: rest => mentionsSlot j p || mentionsSlot j rest
  | .trySet _ :: rest => mentionsSlot j rest
  | .tryMutate _ :: rest => mentionsSlot j rest

end Wasmadeus

namespace Wasmadeus

variable {T : Type}

/-- Ids of the `invoke` events of a log, in order. -/
def invokeIds (log : List (Event T)) : List Nat :=
  log.filterMap (fun e =>
    match e with
    | .invoke j _ => some j
    | _ => none)

/-- The public derived-signal constructors of `impl Signal<T>`
(`src/src/signal/mod.rs`, lines 60–145), each implemented through
`Signal::compose`: the complete derive surface of the module. -/
def deriveOps : List String :=
  ["map", "filter", "filter_map", "fold", "map_while", "skip", "skip_while"]

/-- One registry entry of the source signal in the two-signal model of
`Signal::compose`: its id, its active flag, and whether it is the relay
closure created by `compose` (a non-relay entry is an unrelated callback
that never touches the derived signal). -/
structure MEntry : Type where
  id : Nat
  active : Bool
  isRelay : Bool
deriving DecidableEq, Repr

/-- Two-signal world for `d = s.map(f)` (`Signal::map` through
`Signal::compose`, `src/src/signal/mod.rs`, lines 44–67).  The source
signal is kept at the `RawSignal`/`Broadcast` level (data cell, broadcast
state, borrow flags, registry of `MEntry`); the derived signal is a full
`World U`.  `drv = none` models the last strong handle of the derived
signal having been dropped, after which the relay's weak reference no
longer upgrades; `relayTok` is the inner `Option` of the relay's own
`Unsubscriber` (`compose` registers through `for_each_inner`, which hands
the closure a token for its own source subscription); `panicked` records a
`.unwrap()` failure inside the relay. -/
structure MapWorld (T U : Type) : Type where
  data : Option T
  bstate : BState
  sharedBorrows : Nat
  mutBorrow : Bool
  needsRetain : Bool
  subs : List MEntry
  drv : Option (World U)
  relayTok : Option Nat
  panicked : Bool

/-- `subscriber.active.set(false)` on the source registry of the model. -/
def mDeactivateAt : List MEntry → Nat → List MEntry
  | [], _ => []
  | s :: rest, 0 => { s with active := false } :: rest
  | s :: rest, n + 1 => s :: mDeactivateAt rest n

/-- `Broadcast::unsubscribe` on the source registry of the model
(`src/src/signal/raw/broadcast.rs`, lines 168–185). -/
def mUnsubscribe (tid : Nat) (M : MapWorld T U) : MapWorld T U :=
  match M.subs.findIdx? (fun e => e.id == tid) with
  | none => M
  | some index =>
    match M.bstate with
    | .idling => { M with subs := M.subs.eraseIdx index }
    | _ => { M with subs := mDeactivateAt M.subs index, needsRetain := true }

/-- `Broadcast::retain` on the source registry of the model. -/
def mRetain (M : MapWorld T U) : MapWorld T U :=
  if M.needsRetain then
    { M with needsRetain := false, subs := M.subs.filter (fun e => e.active) }
  else M

/-- The body of the closure `compose` registers on the source, specialized
to `map` (`src/src/signal/mod.rs`, lines 51–54 and 64–66): upgrade the weak
reference; on success run `raw.try_set(map(value)).unwrap()` against the
derived signal (`panicked` set if `try_set` failed); on upgrade failure
`unsub.unsubscribe()` — the relay consumes its own token and removes itself
from the source registry. -/
def relayInvoke (fuel : Nat) (f : T → U) (v : T) (M : MapWorld T U) : MapWorld T U :=
  match M.drv with
  | some d =>
    match trySet fuel (f v) d with
    | (.ok _, d2) => { M with drv := some d2 }
    | (.error _, _) => { M with panicked := true }
  | none =>
    match M.relayTok with
    | some tid => mUnsubscribe tid { M with relayTok := none }
    | none => M

/-- The index walk of `Broadcast::notify` over the source registry of the
model: inactive entries are skipped, a non-relay entry's callback does not
touch the model's state, the relay entry runs `relayInvoke`. -/
def mapWalk : Nat → (T → U) → T → Nat → MapWorld T U → MapWorld T U
  | 0, _, _, _, M => M
  | fuel + 1, f, v, i, M =>
    match M.subs[i]? with
    | none => M
    | some e =>
      mapWalk fuel f v (i + 1)
        (if e.active && e.isRelay then relayInvoke fuel f v M else M)

/-- `try_set` on the source of the model followed by the notification pass
(`RawSignal::try_set` / `notify_all` / `Broadcast::notify`): fails if the
source cell is borrowed; otherwise stores the value, takes the shared
borrow across the broadcast, walks the registry (unless the broadcast is
not idling), retains, restores `Idling` and releases the borrow. -/
def mapSet (fuel : Nat) (f : T → U) (v : T) (M : MapWorld T U) :
    Except SignalUpdatingError Unit × MapWorld T U :=
  if M.mutBorrow = true ∨ 0 < M.sharedBorrows then (.error .mk, M)
  else
    let M1 := { M with data := some v, sharedBorrows := M.sharedBorrows + 1 }
    let M2 :=
      if M1.bstate ≠ .idling then M1
      else { mRetain (mapWalk fuel f v 0 { M1 with bstate := .notifying }) with
               bstate := .idling }
    (.ok (), { M2 with sharedBorrows := M2.sharedBorrows - 1 })

/-- Dropping the last strong handle of the derived signal: from then on the
relay's weak reference fails to upgrade.  Nothing else happens at drop
time — in particular the source registry is untouched. -/
def dropDerived (M : MapWorld T U) : MapWorld T U :=
  { M with drv := none }

/-! ### Basic facts about the interpreter -/

theorem step_stuck (fuel : Nat) (t : Job T) (w : World T) (h : w.stuck = true) :
    step fuel t w = w := by
  cases fuel with
  | zero => simp [step, h]
  | succ n => simp [step, h]

theorem stuck_of_step {fuel : Nat} {t : Job T} {w : World T}
    (h : (step fuel t w).stuck = false) : w.stuck = false := by
  cases hw : w.stuck
  · rfl
  · rw [step_stuck fuel t w hw] at h
    rw [hw] at h
    exact h

theorem step_zero_not_stuck {t : Job T} {w : World T}
    (h : (step 0 t w).stuck = false) : False := by
  have h0 := stuck_of_step h
  rw [show step 0 t w = { w with stuck := true } by simp [step, h0]] at h
  simp at h

/-! ### List helpers -/

theorem invokeIds_append (a b : List (Event T)) :
    invokeIds (a ++ b) = invokeIds a ++ invokeIds b := by
  simp [invokeIds, List.filterMap_append]

theorem countInvoke_eq_count (k : Nat) (log : List (Event T)) :
    countInvoke k log = (invokeIds log).count k := by
  induction log with
  | nil => rfl
  | cons e rest ih =>
    cases e with
    | invoke j v =>
      have h1 : countInvoke k (Event.invoke j v :: rest) =
          (if j == k then 1 else 0) + countInvoke k rest := by
        simp only [countInvoke, List.filter_cons]
        split <;> simp <;> omega
      have h2 : invokeIds (Event.invoke j v :: rest) = j :: invokeIds rest := by
        simp [invokeIds, List.filterMap_cons]
      rw [h1, h2, ih, List.count_cons]
      by_cases h : j = k
      · simp [h]; omega
      · simp [h, Ne.symm h]
    | setOk => simpa [countInvoke, invokeIds, List.filter_cons, List.filterMap_cons] using ih
    | setErr => simpa [countInvoke, invokeIds, List.filter_cons, List.filterMap_cons] using ih
    | mutOk => simpa [countInvoke, invokeIds, List.filter_cons, List.filterMap_cons] using ih
    | mutErr => simpa [countInvoke, invokeIds, List.filter_cons, List.filterMap_cons] using ih

theorem length_deactivateAt (l : List (Subscriber T)) (i : Nat) :
    (deactivateAt l i).length = l.length := by
  induction l generalizing i with
  | nil => rfl
  | cons s rest ih =>
    cases i with
    | zero => simp [deactivateAt]
    | succ n => simp [deactivateAt, ih]

theorem getElem?_deactivateAt_ne (l : List (Subscriber T)) (i j : Nat) (h : j ≠ i) :
    (deactivateAt l i)[j]? = l[j]? := by
  induction l generalizing i j with
  | nil => rfl
  | cons s rest ih =>
    cases i with
    | zero =>
      cases j with
      | zero => omega
      | succ m => simp [deactivateAt]
    | succ n =>
      cases j with
      | zero => simp [deactivateAt]
      | succ m =>
        simp only [deactivateAt, List.getElem?_cons_succ]
        exact ih n m (by omega)

theorem getElem?_deactivateAt_self (l : List (Subscriber T)) (i : Nat) (s : Subscriber T)
    (h : l[i]? = some s) :
    (deactivateAt l i)[i]? = some { s with active := false } := by
  induction l generalizing i with
  | nil => simp at h
  | cons a rest ih =>
    cases i with
    | zero =>
      simp at h
      simp [deactivateAt, h]
    | succ n =>
      simp at h
      simpa [deactivateAt] using ih n h

theorem allLtB_iff (l : List (Subscriber T)) (n : Nat) :
    allLtB l n = true ↔ ∀ s ∈ l, s.id < n := by
  simp [allLtB]

theorem allLtB_mono {l : List (Subscriber T)} {n m : Nat} (h : allLtB l n = true)
    (hnm : n ≤ m) : allLtB l m = true := by
  rw [allLtB_iff] at *
  exact fun s hs => lt_of_lt_of_le (h s hs) hnm

theorem sortedIdsB_cons {a : Subscriber T} {l : List (Subscriber T)} :
    sortedIdsB (a :: l) = true ↔
      (∀ s ∈ l.head?, a.id < s.id) ∧ sortedIdsB l = true := by
  cases l with
  | nil => simp [sortedIdsB]
  | cons b rest => simp [sortedIdsB]

theorem sorted_head_lt {a : Subscriber T} {l : List (Subscriber T)}
    (hs : sortedIdsB (a :: l) = true) {j : Nat} {s : Subscriber T}
    (hjs : l[j]? = some s) : a.id < s.id := by
  induction l generalizing a j with
  | nil => simp at hjs
  | cons b rest ih =>
    rw [sortedIdsB_cons] at hs
    cases j with
    | zero =>
      simp at hjs
      subst hjs
      exact hs.1 _ rfl
    | succ m =>
      simp only [List.getElem?_cons_succ] at hjs
      have hab : a.id < b.id := hs.1 b rfl
      exact lt_trans hab (ih hs.2 hjs)

theorem sorted_get_lt {l : List (Subscriber T)} (hs : sortedIdsB l = true)
    {j1 j2 : Nat} {s1 s2 : Subscriber T} (hj : j1 < j2)
    (h1 : l[j1]? = some s1) (h2 : l[j2]? = some s2) : s1.id < s2.id := by
  induction l generalizing j1 j2 with
  | nil => simp at h1
  | cons a rest ih =>
    cases j1 with
    | zero =>
      simp at h1
      subst h1
      cases j2 with
      | zero => omega
      | succ m =>
        simp only [List.getElem?_cons_succ] at h2
        exact sorted_head_lt hs h2
    | succ m1 =>
      cases j2 with
      | zero => omega
      | succ m2 =>
        simp only [List.getElem?_cons_succ] at h1 h2
        exact ih (sortedIdsB_cons.mp hs).2 (by omega) h1 h2

theorem sorted_unique {l : List (Subscriber T)} (hs : sortedIdsB l = true)
    {j1 j2 : Nat} {s1 s2 : Subscriber T}
    (h1 : l[j1]? = some s1) (h2 : l[j2]? = some s2) (hid : s1.id = s2.id) :
    j1 = j2 := by
  rcases Nat.lt_trichotomy j1 j2 with h | h | h
  · exact absurd (sorted_get_lt hs h h1 h2) (by omega)
  · exact h
  · exact absurd (sorted_get_lt hs h h2 h1) (by omega)

end Wasmadeus

namespace Wasmadeus

variable {T : Type}

/-! ### The callback frame relation

`CbCore n w w2` collects the facts that hold between the world before and
after executing any callback-issued job while the data cell is borrowed
(that is, from inside a notification or an immediate subscription
delivery): the data is untouched, the exclusive borrow flag is untouched,
ids grow monotonically, existing registry entries keep their id, program
and position and can only be deactivated, entries appended during the job
carry ids at least `n`, the log only grows and every `invoke` event it
gains names a subscriber id at least `n` and carries the current data
value, token slots are only consumed (never repointed) and new token slots
reference ids at least `n`, sortedness of the registry is preserved, and a
pending retain flag is never cleared. -/
structure CbCore (n : Nat) (w w2 : World T) : Prop where
  nle : n ≤ w.nextId
  mutB : w2.mutBorrow = w.mutBorrow
  next : w.nextId ≤ w2.nextId
  data : w2.data = w.data
  subsLen : w.subs.length ≤ w2.subs.length
  subsPre : ∀ (j : Nat) (s : Subscriber T), w.subs[j]? = some s →
      ∃ s2, w2.subs[j]? = some s2 ∧
        s2.id = s.id ∧ s2.prog = s.prog ∧ (s2.active = true → s.active = true)
  subsNew : ∀ (j : Nat) (s : Subscriber T),
      w.subs.length ≤ j → w2.subs[j]? = some s → n ≤ s.id
  retainM : w.needsRetain = true → w2.needsRetain = true
  logPre : ∃ E, w2.log = w.log ++ E ∧
      ∀ (k : Nat) (u : T), Event.invoke k u ∈ E → n ≤ k ∧ w.data = some u
  tokLen : w.tokens.length ≤ w2.tokens.length
  tokPre : ∀ (j : Nat), j < w.tokens.length →
      w2.tokens[j]? = w.tokens[j]? ∨ w2.tokens[j]? = some none
  tokNew : ∀ (j m : Nat), w.tokens.length ≤ j → w2.tokens[j]? = some (some m) → n ≤ m
  sortedP : sortedIdsB w.subs = true → allLtB w.subs n = true →
      sortedIdsB w2.subs = true ∧ allLtB w2.subs w2.nextId = true

theorem CbCore.same {n : Nat} {w : World T} (hn : n ≤ w.nextId) : CbCore n w w where
  nle := hn
  mutB := by rfl
  next := le_refl _
  data := by rfl
  subsLen := le_refl _
  subsPre := fun j s h => ⟨s, h, by rfl, by rfl, id⟩
  subsNew := fun j s hj hjs => by
    have : w.subs[j]? = none := by
      simp [List.getElem?_eq_none hj]
    rw [this] at hjs
    exact absurd hjs (by simp)
  retainM := id
  logPre := ⟨[], by simp, by simp⟩
  tokLen := le_refl _
  tokPre := fun j hj => Or.inl (by rfl)
  tokNew := fun j m hj hm => by
    have : w.tokens[j]? = none := by
      simp [List.getElem?_eq_none hj]
    rw [this] at hm
    exact absurd hm (by simp)
  sortedP := fun hs ha => ⟨hs, allLtB_mono ha hn⟩

theorem CbCore.trans {n : Nat} {w w1 w2 : World T}
    (A : CbCore n w w1) (B : CbCore w1.nextId w1 w2) : CbCore n w w2 where
  nle := A.nle
  mutB := by rw [B.mutB, A.mutB]
  next := le_trans A.next B.next
  data := by rw [B.data, A.data]
  subsLen := le_trans A.subsLen B.subsLen
  subsPre := fun j s h => by
    obtain ⟨s1, h1, hid1, hp1, ha1⟩ := A.subsPre j s h
    obtain ⟨s2, h2, hid2, hp2, ha2⟩ := B.subsPre j s1 h1
    exact ⟨s2, h2, by rw [hid2, hid1], by rw [hp2, hp1], fun hx => ha1 (ha2 hx)⟩
  subsNew := fun j s hj hjs => by
    by_cases hcase : j < w1.subs.length
    · obtain ⟨s1, h1⟩ : ∃ s1, w1.subs[j]? = some s1 := by
        rw [List.getElem?_eq_getElem hcase]
        exact ⟨_, by rfl⟩
      obtain ⟨s2, h2, hid2, _, _⟩ := B.subsPre j s1 h1
      rw [h2] at hjs
      injection hjs with hss
      have hn1 : n ≤ s1.id := A.subsNew j s1 hj h1
      rw [← hss, hid2]
      exact hn1
    · exact le_trans (le_trans A.nle A.next) (B.subsNew j s (by omega) hjs)
  retainM := fun h => B.retainM (A.retainM h)
  logPre := by
    obtain ⟨E1, he1, hi1⟩ := A.logPre
    obtain ⟨E2, he2, hi2⟩ := B.logPre
    refine ⟨E1 ++ E2, by rw [he2, he1, List.append_assoc], ?_⟩
    intro k u hk
    rcases List.mem_append.mp hk with h | h
    · exact hi1 k u h
    · obtain ⟨hk2, hd2⟩ := hi2 k u h
      exact ⟨le_trans (le_trans A.nle A.next) hk2, by rw [← A.data]; exact hd2⟩
  tokLen := le_trans A.tokLen B.tokLen
  tokPre := fun j hj => by
    rcases B.tokPre j (lt_of_lt_of_le hj A.tokLen) with h | h
    · rcases A.tokPre j hj with h2 | h2
      · exact Or.inl (by rw [h, h2])
      · exact Or.inr (by rw [h, h2])
    · exact Or.inr h
  tokNew := fun j m hj hm => by
    by_cases hcase : j < w1.tokens.length
    · rcases B.tokPre j hcase with h | h
      · exact A.tokNew j m hj (by rw [← h]; exact hm)
      · rw [h] at hm; simp at hm
    · exact le_trans (le_trans A.nle A.next) (B.tokNew j m (by omega) hm)
  sortedP := fun hs ha => by
    obtain ⟨hs1, ha1⟩ := A.sortedP hs ha
    exact B.sortedP hs1 ha1

end Wasmadeus

namespace Wasmadeus

variable {T : Type}

/-! ### Frame facts for the primitive registry operations -/

theorem retain_frame (w : World T) :
    (retain w).mutBorrow = w.mutBorrow ∧ (retain w).data = w.data ∧
    (retain w).bstate = w.bstate ∧ (retain w).sharedBorrows = w.sharedBorrows ∧
    (retain w).log = w.log ∧ (retain w).nextId = w.nextId ∧
    (retain w).stuck = w.stuck ∧ (retain w).tokens = w.tokens := by
  unfold retain
  split <;> simp

theorem rawUnsubscribe_frame (id : Nat) (w : World T) :
    (rawUnsubscribe id w).mutBorrow = w.mutBorrow ∧
    (rawUnsubscribe id w).data = w.data ∧
    (rawUnsubscribe id w).bstate = w.bstate ∧
    (rawUnsubscribe id w).sharedBorrows = w.sharedBorrows ∧
    (rawUnsubscribe id w).log = w.log ∧
    (rawUnsubscribe id w).nextId = w.nextId ∧
    (rawUnsubscribe id w).stuck = w.stuck ∧
    (rawUnsubscribe id w).tokens = w.tokens := by
  unfold rawUnsubscribe
  split
  · simp
  · split <;> simp

theorem tokenUnsub_frame (slot : Nat) (w : World T) :
    (tokenUnsub slot w).mutBorrow = w.mutBorrow ∧
    (tokenUnsub slot w).data = w.data ∧
    (tokenUnsub slot w).bstate = w.bstate ∧
    (tokenUnsub slot w).sharedBorrows = w.sharedBorrows ∧
    (tokenUnsub slot w).log = w.log ∧
    (tokenUnsub slot w).nextId = w.nextId ∧
    (tokenUnsub slot w).stuck = w.stuck := by
  unfold tokenUnsub
  split
  · rename_i id heq
    have h := rawUnsubscribe_frame id { w with tokens := w.tokens.set slot none }
    simp only [h.1, h.2.1, h.2.2.1, h.2.2.2.1, h.2.2.2.2.1, h.2.2.2.2.2.1,
      h.2.2.2.2.2.2.1]
    simp
  · simp

/-! ### Global step facts: the exclusive borrow flag is never set by the
interpreter (the transient `borrow_mut` inside `try_set`/`try_mutate` is
collapsed, since the update closure is pure), and shared borrows never drop
below their starting count. -/

/-- Unfolding of one interpreter step at positive fuel on a non-stuck
world. -/
theorem step_succ (n : Nat) (t : Job T) (w : World T) (hst : w.stuck = false) :
    step (n + 1) t w = (match t with
      | .prog v acts =>
        match acts with
        | [] => w
        | a :: rest => step n (.prog v rest) (step n (.act v a) w)
      | .act v a =>
        match a with
        | .trySet v2 =>
          let r := setResult w
          let w1 := step n (.set v2) w
          if w1.stuck then w1 else { w1 with log := w1.log ++ [setEvent r] }
        | .tryMutate f =>
          let r := mutateResult w
          let w1 := step n (.mutate f) w
          if w1.stuck then w1 else { w1 with log := w1.log ++ [mutEvent r] }
        | .forEach prog =>
          step n (.forE prog) { w with tokens := w.tokens ++ [some w.nextId] }
        | .unsubscribe slot => tokenUnsub slot w
      | .set v =>
        if w.busy then w
        else step n .notifyAll { w with data := some v }
      | .mutate f =>
        if w.busy then w
        else
          match w.data with
          | none => w
          | some x => step n .notifyAll { w with data := some (f x) }
      | .notifyAll =>
        match w.data with
        | none => w
        | some v =>
          let w1 := step n (.bnotify v) { w with sharedBorrows := w.sharedBorrows + 1 }
          if w1.stuck then w1 else { w1 with sharedBorrows := w1.sharedBorrows - 1 }
      | .bnotify v =>
        if w.bstate ≠ .idling then w
        else
          let w1 := step n (.loop v 0) { w with bstate := .notifying }
          if w1.stuck then w1 else { retain w1 with bstate := .idling }
      | .loop v i =>
        match w.subs[i]? with
        | none => w
        | some s =>
          let w1 :=
            if s.active then
              step n (.prog v s.prog) { w with log := w.log ++ [.invoke s.id v] }
            else w
          step n (.loop v (i + 1)) w1
      | .forE prog =>
        let id := w.nextId
        let w0 := { w with nextId := id + 1 }
        if w0.mutBorrow then step n (.push id prog none) w0
        else
          let w1 := step n (.push id prog w0.data)
            { w0 with sharedBorrows := w0.sharedBorrows + 1 }
          if w1.stuck then w1 else { w1 with sharedBorrows := w1.sharedBorrows - 1 }
      | .push id prog value =>
        let w0 := { w with subs := w.subs ++ [⟨id, true, prog⟩] }
        match value with
        | none => w0
        | some v =>
          match w0.bstate with
          | .idling =>
            let w1 := step n (.prog v prog)
              { w0 with bstate := .subscribing, log := w0.log ++ [.invoke id v] }
            if w1.stuck then w1 else { w1 with bstate := .idling }
          | .notifying => w0
          | .subscribing =>
            step n (.prog v prog) { w0 with log := w0.log ++ [.invoke id v] }) := by
  simp only [step]
  rw [if_neg (by rw [hst]; simp)]

theorem mutB_const : ∀ (fuel : Nat) (t : Job T) (w : World T),
    (step fuel t w).mutBorrow = w.mutBorrow := by
  intro fuel
  induction fuel with
  | zero =>
    intro t w
    simp only [step]
    split <;> rfl
  | succ n ih =>
    intro t w
    by_cases hst : w.stuck = true
    · rw [step_stuck _ _ _ hst]
    · rw [step_succ n t w (by revert hst; cases w.stuck <;> simp)]
      cases t with
      | prog v acts =>
        cases acts with
        | nil => rfl
        | cons a rest => simp only []; rw [ih, ih]
      | act v a =>
        cases a with
        | trySet v2 =>
          simp only []
          split
          · rw [ih]
          · show ({ step n (.set v2) w with
              log := (step n (.set v2) w).log ++ [setEvent (setResult w)] }).mutBorrow =
              w.mutBorrow
            simp only []
            rw [ih]
        | tryMutate f =>
          simp only []
          split
          · rw [ih]
          · show ({ step n (.mutate f) w with
              log := (step n (.mutate f) w).log ++ [mutEvent (mutateResult w)] }).mutBorrow =
              w.mutBorrow
            simp only []
            rw [ih]
        | forEach prog => simp only []; rw [ih]
        | unsubscribe slot => exact (tokenUnsub_frame slot w).1
      | set v =>
        simp only []
        split
        · rfl
        · rw [ih]
      | mutate f =>
        simp only []
        split
        · rfl
        · split
          · rfl
          · rw [ih]
      | notifyAll =>
        simp only []
        split
        · rfl
        · split
          · rw [ih]
          · simp only []; rw [ih]
      | bnotify v =>
        simp only []
        split
        · rfl
        · split
          · rw [ih]
          · simp only []
            rw [show ({ retain (step n (.loop v 0) { w with bstate := .notifying }) with
              bstate := .idling } : World T).mutBorrow =
              (retain (step n (.loop v 0) { w with bstate := .notifying })).mutBorrow from rfl,
              (retain_frame _).1, ih]
      | loop v i =>
        simp only []
        split
        · rfl
        · rw [ih]
          split
          · rw [ih]
          · rfl
      | forE prog =>
        simp only []
        split
        · rw [ih]
        · split
          · rw [ih]
          · simp only []; rw [ih]
      | push id prog value =>
        simp only []
        split
        · rfl
        · split
          · split
            · rw [ih]
            · simp only []; rw [ih]
          · rfl
          · rw [ih]
  
end Wasmadeus

namespace Wasmadeus

variable {T : Type}

theorem shared_mono : ∀ (fuel : Nat) (t : Job T) (w : World T),
    w.sharedBorrows ≤ (step fuel t w).sharedBorrows := by
  intro fuel
  induction fuel with
  | zero =>
    intro t w
    simp only [step]
    split <;> simp
  | succ n ih =>
    intro t w
    by_cases hst : w.stuck = true
    · rw [step_stuck _ _ _ hst]
    · rw [step_succ n t w (by revert hst; cases w.stuck <;> simp)]
      cases t with
      | prog v acts =>
        cases acts with
        | nil => exact le_refl _
        | cons a rest =>
          simp only []
          calc w.sharedBorrows ≤ (step n (.act v a) w).sharedBorrows := ih _ _
            _ ≤ _ := ih _ _
      | act v a =>
        cases a with
        | trySet v2 =>
          simp only []
          split
          · exact ih _ _
          · exact ih _ _
        | tryMutate f =>
          simp only []
          split
          · exact ih _ _
          · exact ih _ _
        | forEach prog =>
          simp only []
          exact le_trans (le_of_eq rfl)
            (ih (.forE prog) { w with tokens := w.tokens ++ [some w.nextId] })
        | unsubscribe slot =>
          rw [(tokenUnsub_frame slot w).2.2.2.1]
      | set v =>
        simp only []
        split
        · exact le_refl _
        · exact le_trans (le_of_eq rfl) (ih .notifyAll { w with data := some v })
      | mutate f =>
        simp only []
        split
        · exact le_refl _
        · split
          · exact le_refl _
          · rename_i x heq
            exact le_trans (le_of_eq rfl) (ih .notifyAll { w with data := some (f x) })
      | notifyAll =>
        simp only []
        split
        · exact le_refl _
        · rename_i v heq
          have h1 := ih (.bnotify v) { w with sharedBorrows := w.sharedBorrows + 1 }
          simp only [] at h1
          split
          · omega
          · simp only []
            omega
      | bnotify v =>
        simp only []
        split
        · exact le_refl _
        · have h1 := ih (.loop v 0) { w with bstate := .notifying }
          simp only [] at h1
          split
          · omega
          · simp only []
            rw [(retain_frame _).2.2.2.1]
            omega
      | loop v i =>
        simp only []
        split
        · exact le_refl _
        · rename_i s heq
          split
          · have h1 := ih (.prog v s.prog) { w with log := w.log ++ [.invoke s.id v] }
            simp only [] at h1
            have h2 := ih (.loop v (i + 1))
              (step n (.prog v s.prog) { w with log := w.log ++ [.invoke s.id v] })
            omega
          · exact ih _ _
      | forE prog =>
        simp only []
        split
        · have h1 := ih (.push w.nextId prog none) { w with nextId := w.nextId + 1 }
          simp only [] at h1
          omega
        · have h1 := ih (.push w.nextId prog w.data)
            { w with nextId := w.nextId + 1, sharedBorrows := w.sharedBorrows + 1 }
          simp only [] at h1
          split
          · omega
          · simp only []
            omega
      | push id prog value =>
        simp only []
        split
        · exact le_refl _
        · split
          · split
            · refine le_trans (le_of_eq ?_) (ih _ _)
              rfl
            · refine le_trans (le_of_eq ?_) (ih _ _)
              rfl
          · exact le_refl _
          · refine le_trans (le_of_eq ?_) (ih _ _)
            rfl

theorem busy_step (fuel : Nat) (t : Job T) (w : World T) (h : w.busy) :
    (step fuel t w).busy := by
  rcases h with h | h
  · exact Or.inl (by rw [mutB_const]; exact h)
  · exact Or.inr (lt_of_lt_of_le h (shared_mono fuel t w))

end Wasmadeus

namespace Wasmadeus

variable {T : Type}


theorem getElem?_some_lt {l : List (Subscriber T)} {j : Nat} {s : Subscriber T}
    (h : l[j]? = some s) : j < l.length := by
  by_contra hc
  rw [List.getElem?_eq_none (by omega)] at h
  exact absurd h (by simp)

theorem sortedIdsB_append_single {l : List (Subscriber T)} {x : Subscriber T}
    (hs : sortedIdsB l = true) (hlt : ∀ s ∈ l, s.id < x.id) :
    sortedIdsB (l ++ [x]) = true := by
  induction l with
  | nil => simp [sortedIdsB]
  | cons a rest ih =>
    rw [List.cons_append, sortedIdsB_cons]
    rw [sortedIdsB_cons] at hs
    refine ⟨?_, ih hs.2 (fun s hsm => hlt s (List.mem_cons_of_mem a hsm))⟩
    intro s hhead
    cases rest with
    | nil =>
      simp at hhead
      subst hhead
      exact hlt a (List.mem_cons_self a [])
    | cons b r2 =>
      simp at hhead
      subst hhead
      exact hs.1 _ rfl

/-- `CbCore` between worlds that agree on every non-transient field: only
`bstate`, `sharedBorrows` and `stuck` may differ. -/
theorem CbCore.ghost {n : Nat} {w w2 : World T} (hn : n ≤ w.nextId)
    (hmb : w2.mutBorrow = w.mutBorrow) (hnext : w2.nextId = w.nextId)
    (hdata : w2.data = w.data) (hsubs : w2.subs = w.subs)
    (hret : w2.needsRetain = w.needsRetain) (hlog : w2.log = w.log)
    (htok : w2.tokens = w.tokens) : CbCore n w w2 where
  nle := hn
  mutB := hmb
  next := le_of_eq hnext.symm
  data := hdata
  subsLen := le_of_eq (by rw [hsubs])
  subsPre := by
    intro j s h
    rw [hsubs]
    exact ⟨s, h, Eq.refl s.id, Eq.refl s.prog, fun hx => hx⟩
  subsNew := fun j s hj hjs => by
    rw [hsubs] at hjs
    rw [List.getElem?_eq_none hj] at hjs
    exact absurd hjs (by simp)
  retainM := fun h => by rw [hret]; exact h
  logPre := ⟨[], by simp [hlog], by simp⟩
  tokLen := le_of_eq (by rw [htok])
  tokPre := fun j hj => Or.inl (by rw [htok])
  tokNew := fun j m hj hm => by
    rw [htok, List.getElem?_eq_none hj] at hm
    exact absurd hm (by simp)
  sortedP := fun hs ha => ⟨by rw [hsubs]; exact hs,
    by rw [hsubs, hnext]; exact allLtB_mono ha hn⟩

/-- Post-compose a `CbCore` with a change of transient fields and a log
extension whose `invoke` events are fresh for `n` and carry the data value. -/
theorem CbCore.postLog {n : Nat} {w w1 w2 : World T} (C : CbCore n w w1)
    (E : List (Event T))
    (hmb : w2.mutBorrow = w1.mutBorrow) (hnext : w2.nextId = w1.nextId)
    (hdata : w2.data = w1.data) (hsubs : w2.subs = w1.subs)
    (hret : w2.needsRetain = w1.needsRetain) (hlog : w2.log = w1.log ++ E)
    (htok : w2.tokens = w1.tokens)
    (hE : ∀ (k : Nat) (u : T), Event.invoke k u ∈ E → n ≤ k ∧ w.data = some u) :
    CbCore n w w2 where
  nle := C.nle
  mutB := by rw [hmb, C.mutB]
  next := by rw [hnext]; exact C.next
  data := by rw [hdata, C.data]
  subsLen := by rw [hsubs]; exact C.subsLen
  subsPre := fun j s h => by rw [hsubs]; exact C.subsPre j s h
  subsNew := fun j s hj hjs => by
    rw [hsubs] at hjs
    exact C.subsNew j s hj hjs
  retainM := fun h => by rw [hret]; exact C.retainM h
  logPre := by
    obtain ⟨E1, he1, hi1⟩ := C.logPre
    refine ⟨E1 ++ E, by rw [hlog, he1, List.append_assoc], ?_⟩
    intro k u hk
    rcases List.mem_append.mp hk with h | h
    · exact hi1 k u h
    · exact hE k u h
  tokLen := by rw [htok]; exact C.tokLen
  tokPre := fun j hj => by rw [htok]; exact C.tokPre j hj
  tokNew := fun j m hj hm => by
    rw [htok] at hm
    exact C.tokNew j m hj hm
  sortedP := fun hs ha => by
    rw [hsubs, hnext]
    exact C.sortedP hs ha

/-- Post-compose a `CbCore` with a change of transient fields only. -/
theorem CbCore.post {n : Nat} {w w1 w2 : World T} (C : CbCore n w w1)
    (hmb : w2.mutBorrow = w1.mutBorrow) (hnext : w2.nextId = w1.nextId)
    (hdata : w2.data = w1.data) (hsubs : w2.subs = w1.subs)
    (hret : w2.needsRetain = w1.needsRetain) (hlog : w2.log = w1.log)
    (htok : w2.tokens = w1.tokens) : CbCore n w w2 :=
  CbCore.postLog C [] hmb hnext hdata hsubs hret (by rw [hlog]; simp) htok
    (fun k u hk => absurd hk (by simp))

/-- Pre-compose: a `CbCore` out of a world that differs from `w` only in
transient fields and a possibly advanced id counter gives a `CbCore` out
of `w`. -/
theorem CbCore.through {n : Nat} {w wPre w2 : World T}
    (B : CbCore n wPre w2)
    (hn : n ≤ w.nextId) (hnext : w.nextId ≤ wPre.nextId)
    (hmb : wPre.mutBorrow = w.mutBorrow) (hdata : wPre.data = w.data)
    (hsubs : wPre.subs = w.subs) (hret : wPre.needsRetain = w.needsRetain)
    (hlog : wPre.log = w.log) (htok : wPre.tokens = w.tokens) : CbCore n w w2 where
  nle := hn
  mutB := by rw [B.mutB, hmb]
  next := le_trans hnext B.next
  data := by rw [B.data, hdata]
  subsLen := by
    have h := B.subsLen
    rw [hsubs] at h
    exact h
  subsPre := fun j s h => B.subsPre j s (by rw [hsubs]; exact h)
  subsNew := fun j s hj hjs => B.subsNew j s (by rw [hsubs]; exact hj) hjs
  retainM := fun h => B.retainM (by rw [hret]; exact h)
  logPre := by
    obtain ⟨E, he, hi⟩ := B.logPre
    rw [hlog] at he
    rw [hdata] at hi
    exact ⟨E, he, hi⟩
  tokLen := by
    have h := B.tokLen
    rw [htok] at h
    exact h
  tokPre := fun j hj => by
    have h := B.tokPre j (by rw [htok]; exact hj)
    rw [htok] at h
    exact h
  tokNew := fun j m hj hm => B.tokNew j m (by rw [htok]; exact hj) hm
  sortedP := fun hs ha =>
    B.sortedP (by rw [hsubs]; exact hs) (by rw [hsubs]; exact ha)

/-- Appending a fresh token slot for the subscriber about to be created. -/
theorem CbCore.appendTok {n : Nat} {w : World T} (hn : n ≤ w.nextId) :
    CbCore n w { w with tokens := w.tokens ++ [some w.nextId] } where
  nle := hn
  mutB := Eq.refl _
  next := le_refl _
  data := Eq.refl _
  subsLen := le_refl _
  subsPre := fun j s h => ⟨s, h, Eq.refl s.id, Eq.refl s.prog, fun hx => hx⟩
  subsNew := fun j s hj hjs => by
    have hjs2 : w.subs[j]? = some s := hjs
    rw [List.getElem?_eq_none hj] at hjs2
    exact absurd hjs2 (by simp)
  retainM := fun h => h
  logPre := ⟨[], by simp, by simp⟩
  tokLen := by
    show w.tokens.length ≤ (w.tokens ++ [some w.nextId]).length
    simp
  tokPre := fun j hj => Or.inl (by
    show (w.tokens ++ [some w.nextId])[j]? = w.tokens[j]?
    rw [List.getElem?_append]
    simp [hj])
  tokNew := fun j m hj hm => by
    have hm2 : (w.tokens ++ [some w.nextId])[j]? = some (some m) := hm
    rw [List.getElem?_append, if_neg (by omega)] at hm2
    by_cases hj2 : j - w.tokens.length = 0
    · rw [hj2] at hm2
      simp at hm2
      omega
    · rw [show ([some w.nextId] : List (Option Nat))[j - w.tokens.length]? = none by
        apply List.getElem?_eq_none
        simp
        omega] at hm2
      exact absurd hm2 (by simp)
  sortedP := fun hs ha => ⟨hs, allLtB_mono ha hn⟩

/-- Appending the fresh registry entry in `push_subscriber`. -/
theorem CbCore.pushEntry {entryId : Nat} {w : World T} {prog : List (Act T)}
    (hid : entryId < w.nextId) :
    CbCore entryId w { w with subs := w.subs ++ [⟨entryId, true, prog⟩] } where
  nle := le_of_lt hid
  mutB := Eq.refl _
  next := le_refl _
  data := Eq.refl _
  subsLen := by
    show w.subs.length ≤ (w.subs ++ [(⟨entryId, true, prog⟩ : Subscriber T)]).length
    simp
  subsPre := by
    intro j s h
    have h2 : (w.subs ++ [(⟨entryId, true, prog⟩ : Subscriber T)])[j]? = some s := by
      rw [List.getElem?_append, if_pos (getElem?_some_lt h)]
      exact h
    exact ⟨s, h2, rfl, rfl, fun hx => hx⟩
  subsNew := fun j s hj hjs => by
    have hjs2 : (w.subs ++ [(⟨entryId, true, prog⟩ : Subscriber T)])[j]? = some s := hjs
    rw [List.getElem?_append, if_neg (by omega)] at hjs2
    by_cases hj2 : j - w.subs.length = 0
    · rw [hj2] at hjs2
      simp at hjs2
      rw [← hjs2]
    · rw [show ([(⟨entryId, true, prog⟩ : Subscriber T)])[j - w.subs.length]? = none by
        apply List.getElem?_eq_none
        simp
        omega] at hjs2
      exact absurd hjs2 (by simp)
  retainM := fun h => h
  logPre := ⟨[], by simp, by simp⟩
  tokLen := le_refl _
  tokPre := fun j hj => Or.inl (Eq.refl _)
  tokNew := fun j m hj hm => by
    have hm2 : w.tokens[j]? = some (some m) := hm
    rw [List.getElem?_eq_none hj] at hm2
    exact absurd hm2 (by simp)
  sortedP := fun hs ha => by
    constructor
    · exact sortedIdsB_append_single hs (fun s hsm => (allLtB_iff _ _).mp ha s hsm)
    · rw [allLtB_iff]
      intro s hsm
      rcases List.mem_append.mp hsm with h | h
      · exact lt_trans ((allLtB_iff _ _).mp ha s h) hid
      · simp at h
        rw [h]
        exact hid

end Wasmadeus

namespace Wasmadeus

variable {T : Type}

theorem idsOf_deactivateAt (l : List (Subscriber T)) (i : Nat) :
    (deactivateAt l i).map (fun s => s.id) = l.map (fun s => s.id) := by
  induction l generalizing i with
  | nil => rfl
  | cons a rest ih =>
    cases i with
    | zero => simp [deactivateAt]
    | succ m => simp [deactivateAt, ih m]

theorem sortedIdsB_eq_of_ids : ∀ (l1 l2 : List (Subscriber T)),
    l1.map (fun s => s.id) = l2.map (fun s => s.id) →
    sortedIdsB l1 = sortedIdsB l2 := by
  intro l1
  induction l1 with
  | nil =>
    intro l2 h
    cases l2 with
    | nil => rfl
    | cons b r2 => simp at h
  | cons a rest ih =>
    intro l2 h
    cases l2 with
    | nil => simp at h
    | cons b r2 =>
      simp only [List.map_cons, List.cons.injEq] at h
      cases rest with
      | nil =>
        cases r2 with
        | nil => rfl
        | cons c r3 => simp at h
      | cons a2 rest2 =>
        cases r2 with
        | nil => simp at h
        | cons b2 r4 =>
          simp only [sortedIdsB]
          have hids := ih (b2 :: r4) h.2
          have ha2 : a2.id = b2.id := by
            have := h.2
            simp only [List.map_cons, List.cons.injEq] at this
            exact this.1
          rw [hids, h.1, ha2]

theorem allLtB_eq_of_ids {l1 l2 : List (Subscriber T)} (n : Nat)
    (h : l1.map (fun s => s.id) = l2.map (fun s => s.id)) :
    allLtB l1 n = allLtB l2 n := by
  unfold allLtB
  rw [Bool.eq_iff_iff, List.all_eq_true, List.all_eq_true]
  constructor
  · intro hall s hs
    have : s.id ∈ l2.map (fun s => s.id) := List.mem_map_of_mem _ hs
    rw [← h] at this
    obtain ⟨s1, hs1, hid⟩ := List.mem_map.mp this
    rw [← hid]
    exact hall s1 hs1
  · intro hall s hs
    have : s.id ∈ l1.map (fun s => s.id) := List.mem_map_of_mem _ hs
    rw [h] at this
    obtain ⟨s2, hs2, hid⟩ := List.mem_map.mp this
    rw [← hid]
    exact hall s2 hs2

theorem sortedIdsB_deactivateAt (l : List (Subscriber T)) (i : Nat) :
    sortedIdsB (deactivateAt l i) = sortedIdsB l :=
  sortedIdsB_eq_of_ids _ _ (idsOf_deactivateAt l i)

theorem allLtB_deactivateAt (l : List (Subscriber T)) (i n : Nat) :
    allLtB (deactivateAt l i) n = allLtB l n :=
  allLtB_eq_of_ids n (idsOf_deactivateAt l i)

/-- Consuming a token slot (`self.0.take()`). -/
theorem CbCore.setTokNone {n slot : Nat} {w : World T} (hn : n ≤ w.nextId) :
    CbCore n w { w with tokens := w.tokens.set slot none } where
  nle := hn
  mutB := Eq.refl _
  next := le_refl _
  data := Eq.refl _
  subsLen := le_refl _
  subsPre := fun j s h => ⟨s, h, Eq.refl s.id, Eq.refl s.prog, fun hx => hx⟩
  subsNew := fun j s hj hjs => by
    have hjs2 : w.subs[j]? = some s := hjs
    rw [List.getElem?_eq_none hj] at hjs2
    exact absurd hjs2 (by simp)
  retainM := fun h => h
  logPre := ⟨[], by simp, by simp⟩
  tokLen := by
    show w.tokens.length ≤ (w.tokens.set slot none).length
    simp
  tokPre := by
    intro j hj
    show (w.tokens.set slot none)[j]? = w.tokens[j]? ∨
      (w.tokens.set slot none)[j]? = some none
    by_cases hjs : j = slot
    · subst hjs
      right
      rw [List.getElem?_set]
      simp [hj]
    · left
      rw [List.getElem?_set]
      simp [Ne.symm hjs]
  tokNew := by
    intro j m hj hm
    show n ≤ m
    have hnone : (w.tokens.set slot none)[j]? = none :=
      List.getElem?_eq_none (by simp; exact hj)
    rw [show ({ w with tokens := w.tokens.set slot none } : World T).tokens[j]? =
      (w.tokens.set slot none)[j]? from rfl, hnone] at hm
    exact absurd hm (by simp)
  sortedP := fun hs ha => ⟨hs, allLtB_mono ha hn⟩

/-- Lazily deactivating the entry at an index, owing a retain pass. -/
theorem CbCore.deactivate {n idx : Nat} {w : World T} (hn : n ≤ w.nextId) :
    CbCore n w { w with subs := deactivateAt w.subs idx, needsRetain := true } where
  nle := hn
  mutB := Eq.refl _
  next := le_refl _
  data := Eq.refl _
  subsLen := by
    show w.subs.length ≤ (deactivateAt w.subs idx).length
    rw [length_deactivateAt]
  subsPre := by
    intro j s h
    by_cases hj : j = idx
    · subst hj
      refine ⟨{ s with active := false }, ?_, Eq.refl s.id, Eq.refl s.prog, ?_⟩
      · exact getElem?_deactivateAt_self w.subs j s h
      · intro hx
        exact absurd hx (by simp)
    · refine ⟨s, ?_, Eq.refl s.id, Eq.refl s.prog, fun hx => hx⟩
      show (deactivateAt w.subs idx)[j]? = some s
      rw [getElem?_deactivateAt_ne w.subs idx j hj]
      exact h
  subsNew := by
    intro j s hj hjs
    have hjs2 : (deactivateAt w.subs idx)[j]? = some s := hjs
    rw [List.getElem?_eq_none (by rw [length_deactivateAt]; exact hj)] at hjs2
    exact absurd hjs2 (by simp)
  retainM := fun _ => Eq.refl _
  logPre := ⟨[], by simp, by simp⟩
  tokLen := le_refl _
  tokPre := fun j hj => Or.inl (Eq.refl _)
  tokNew := fun j m hj hm => by
    have hm2 : w.tokens[j]? = some (some m) := hm
    rw [List.getElem?_eq_none hj] at hm2
    exact absurd hm2 (by simp)
  sortedP := fun hs ha => by
    constructor
    · show sortedIdsB (deactivateAt w.subs idx) = true
      rw [sortedIdsB_deactivateAt]
      exact hs
    · show allLtB (deactivateAt w.subs idx) w.nextId = true
      rw [allLtB_deactivateAt]
      exact allLtB_mono ha hn

/-- `Unsubscriber::unsubscribe` from inside a callback (the broadcast is
not idling, so removal is lazy) satisfies the callback frame relation. -/
theorem CbCore.ofTokenUnsub {n slot : Nat} {w : World T}
    (hn : n ≤ w.nextId) (hni : w.bstate ≠ .idling) :
    CbCore n w (tokenUnsub slot w) := by
  unfold tokenUnsub
  split
  · rename_i id heq
    unfold rawUnsubscribe
    have base : CbCore n w { w with tokens := w.tokens.set slot none } :=
      CbCore.setTokNone hn
    split
    · exact base
    · rename_i idx hfound
      split
      · rename_i hidl
        exact absurd hidl hni
      · exact CbCore.trans base (CbCore.deactivate (le_refl _))
  · exact CbCore.same hn

end Wasmadeus

namespace Wasmadeus

variable {T : Type}

theorem setEvent_ne_invoke (r : Except SignalUpdatingError Unit) (k : Nat) (u : T) :
    setEvent r ≠ Event.invoke k u := by
  cases r <;> simp [setEvent]

theorem mutEvent_ne_invoke (r : Except SignalUpdatingError Unit) (k : Nat) (u : T) :
    mutEvent r ≠ Event.invoke k u := by
  cases r <;> simp [mutEvent]

/-- `try_set` on a borrowed cell leaves the world unchanged (or merely
marks fuel exhaustion). -/
theorem set_busy (fuel : Nat) (v : T) {w : World T} (h : w.busy) :
    step fuel (.set v) w = w ∨ step fuel (.set v) w = { w with stuck := true } := by
  cases fuel with
  | zero =>
    by_cases hst : w.stuck = true
    · exact Or.inl (step_stuck _ _ _ hst)
    · right
      simp [step, hst]
  | succ n =>
    by_cases hst : w.stuck = true
    · exact Or.inl (step_stuck _ _ _ hst)
    · left
      rw [step_succ n _ w (by revert hst; cases w.stuck <;> simp)]
      simp only []
      rw [if_pos h]

/-- `try_mutate` on a borrowed cell leaves the world unchanged (or merely
marks fuel exhaustion). -/
theorem mutate_busy (fuel : Nat) (f : T → T) {w : World T} (h : w.busy) :
    step fuel (.mutate f) w = w ∨ step fuel (.mutate f) w = { w with stuck := true } := by
  cases fuel with
  | zero =>
    by_cases hst : w.stuck = true
    · exact Or.inl (step_stuck _ _ _ hst)
    · right
      simp [step, hst]
  | succ n =>
    by_cases hst : w.stuck = true
    · exact Or.inl (step_stuck _ _ _ hst)
    · left
      rw [step_succ n _ w (by revert hst; cases w.stuck <;> simp)]
      simp only []
      rw [if_pos h]

/-- The central fact about callbacks: any job issued from inside a
callback — a callback program, a single action, a `raw_for_each`
registration or a `push_subscriber` — run while the data cell is borrowed
satisfies the `CbCore` frame relation, and (unless the broadcast was
idling) leaves the broadcast state unchanged. -/
theorem cbCore_step : ∀ (fuel : Nat),
    (∀ (v : T) (acts : List (Act T)) (w : World T), w.busy → w.bstate ≠ .idling →
      CbCore w.nextId w (step fuel (.prog v acts) w) ∧
        (step fuel (.prog v acts) w).bstate = w.bstate) ∧
    (∀ (v : T) (a : Act T) (w : World T), w.busy → w.bstate ≠ .idling →
      CbCore w.nextId w (step fuel (.act v a) w) ∧
        (step fuel (.act v a) w).bstate = w.bstate) ∧
    (∀ (p : List (Act T)) (w : World T), w.busy →
      CbCore w.nextId w (step fuel (.forE p) w) ∧
        (w.bstate ≠ .idling → (step fuel (.forE p) w).bstate = w.bstate)) ∧
    (∀ (entryId : Nat) (p : List (Act T)) (val : Option T) (w : World T), w.busy →
      (val = none ∨ val = w.data) → entryId < w.nextId →
      CbCore entryId w (step fuel (.push entryId p val) w) ∧
        (w.bstate ≠ .idling → (step fuel (.push entryId p val) w).bstate = w.bstate)) := by
  intro fuel
  induction fuel with
  | zero =>
    refine ⟨?_, ?_, ?_, ?_⟩
    · intro v acts w hb hni
      by_cases hst : w.stuck = true
      · rw [step_stuck _ _ _ hst]
        exact ⟨CbCore.same (le_refl _), rfl⟩
      · rw [show step 0 (Job.prog v acts) w = { w with stuck := true } by simp [step, hst]]
        exact ⟨CbCore.ghost (le_refl _) rfl rfl rfl rfl rfl rfl rfl, rfl⟩
    · intro v a w hb hni
      by_cases hst : w.stuck = true
      · rw [step_stuck _ _ _ hst]
        exact ⟨CbCore.same (le_refl _), rfl⟩
      · rw [show step 0 (Job.act v a) w = { w with stuck := true } by simp [step, hst]]
        exact ⟨CbCore.ghost (le_refl _) rfl rfl rfl rfl rfl rfl rfl, rfl⟩
    · intro p w hb
      by_cases hst : w.stuck = true
      · rw [step_stuck _ _ _ hst]
        exact ⟨CbCore.same (le_refl _), fun _ => rfl⟩
      · rw [show step 0 (Job.forE p) w = { w with stuck := true } by simp [step, hst]]
        exact ⟨CbCore.ghost (le_refl _) rfl rfl rfl rfl rfl rfl rfl, fun _ => rfl⟩
    · intro entryId p val w hb hval hid
      by_cases hst : w.stuck = true
      · rw [step_stuck _ _ _ hst]
        exact ⟨CbCore.same (le_of_lt hid), fun _ => rfl⟩
      · rw [show step 0 (Job.push entryId p val) w = { w with stuck := true } by
          simp [step, hst]]
        exact ⟨CbCore.ghost (le_of_lt hid) rfl rfl rfl rfl rfl rfl rfl, fun _ => rfl⟩
  | succ n ih =>
    obtain ⟨ihProg, ihAct, ihForE, ihPush⟩ := ih
    have hProg : ∀ (v : T) (acts : List (Act T)) (w : World T), w.busy →
        w.bstate ≠ .idling →
        CbCore w.nextId w (step (n + 1) (.prog v acts) w) ∧
          (step (n + 1) (.prog v acts) w).bstate = w.bstate := by
      intro v acts w hb hni
      by_cases hst : w.stuck = true
      · rw [step_stuck _ _ _ hst]
        exact ⟨CbCore.same (le_refl _), rfl⟩
      · rw [step_succ n _ w (by revert hst; cases w.stuck <;> simp)]
        cases acts with
        | nil => exact ⟨CbCore.same (le_refl _), rfl⟩
        | cons a rest =>
          simp only []
          obtain ⟨C1, hb1⟩ := ihAct v a w hb hni
          obtain ⟨C2, hb2⟩ := ihProg v rest (step n (.act v a) w)
            (busy_step n _ w hb) (by rw [hb1]; exact hni)
          exact ⟨C1.trans C2, by rw [hb2, hb1]⟩
    have hAct : ∀ (v : T) (a : Act T) (w : World T), w.busy → w.bstate ≠ .idling →
        CbCore w.nextId w (step (n + 1) (.act v a) w) ∧
          (step (n + 1) (.act v a) w).bstate = w.bstate := by
      intro v a w hb hni
      by_cases hst : w.stuck = true
      · rw [step_stuck _ _ _ hst]
        exact ⟨CbCore.same (le_refl _), rfl⟩
      · rw [step_succ n _ w (by revert hst; cases w.stuck <;> simp)]
        cases a with
        | trySet v2 =>
          simp only []
          rcases set_busy n v2 hb with he | he
          · rw [he]
            rw [if_neg hst]
            refine ⟨CbCore.postLog (CbCore.same (le_refl _)) [setEvent (setResult w)]
              rfl rfl rfl rfl rfl rfl rfl ?_, rfl⟩
            intro k u hk
            simp at hk
            exact absurd hk.symm (setEvent_ne_invoke _ k u)
          · rw [he]
            rw [if_pos rfl]
            exact ⟨CbCore.ghost (le_refl _) rfl rfl rfl rfl rfl rfl rfl, rfl⟩
        | tryMutate f =>
          simp only []
          rcases mutate_busy n f hb with he | he
          · rw [he]
            rw [if_neg hst]
            refine ⟨CbCore.postLog (CbCore.same (le_refl _)) [mutEvent (mutateResult w)]
              rfl rfl rfl rfl rfl rfl rfl ?_, rfl⟩
            intro k u hk
            simp at hk
            exact absurd hk.symm (mutEvent_ne_invoke _ k u)
          · rw [he]
            rw [if_pos rfl]
            exact ⟨CbCore.ghost (le_refl _) rfl rfl rfl rfl rfl rfl rfl, rfl⟩
        | forEach p =>
          simp only []
          obtain ⟨C, hbc⟩ := ihForE p { w with tokens := w.tokens ++ [some w.nextId] } hb
          exact ⟨(CbCore.appendTok (le_refl _)).trans C, hbc hni⟩
        | unsubscribe slot =>
          exact ⟨CbCore.ofTokenUnsub (le_refl _) hni, (tokenUnsub_frame slot w).2.2.1⟩
    have hForE : ∀ (p : List (Act T)) (w : World T), w.busy →
        CbCore w.nextId w (step (n + 1) (.forE p) w) ∧
          (w.bstate ≠ .idling → (step (n + 1) (.forE p) w).bstate = w.bstate) := by
      intro p w hb
      by_cases hst : w.stuck = true
      · rw [step_stuck _ _ _ hst]
        exact ⟨CbCore.same (le_refl _), fun _ => rfl⟩
      · rw [step_succ n _ w (by revert hst; cases w.stuck <;> simp)]
        simp only []
        split
        · rename_i hmb
          obtain ⟨C, hbc⟩ := ihPush w.nextId p none { w with nextId := w.nextId + 1 }
            (Or.inl hmb) (Or.inl rfl) (Nat.lt_succ_self _)
          exact ⟨CbCore.through C (le_refl _) (Nat.le_succ _) rfl rfl rfl rfl rfl rfl,
            fun hni => hbc hni⟩
        · obtain ⟨C, hbc⟩ := ihPush w.nextId p w.data
            { w with nextId := w.nextId + 1, sharedBorrows := w.sharedBorrows + 1 }
            (Or.inr (by simp)) (Or.inr rfl) (Nat.lt_succ_self _)
          have C2 : CbCore w.nextId w (step n
              (.push w.nextId p w.data)
              { w with nextId := w.nextId + 1, sharedBorrows := w.sharedBorrows + 1 }) :=
            CbCore.through C (le_refl _) (Nat.le_succ _) rfl rfl rfl rfl rfl rfl
          split
          · exact ⟨C2, fun hni => hbc hni⟩
          · exact ⟨CbCore.post C2 rfl rfl rfl rfl rfl rfl rfl, fun hni => hbc hni⟩
    have hPush : ∀ (entryId : Nat) (p : List (Act T)) (val : Option T) (w : World T),
        w.busy → (val = none ∨ val = w.data) → entryId < w.nextId →
        CbCore entryId w (step (n + 1) (.push entryId p val) w) ∧
          (w.bstate ≠ .idling → (step (n + 1) (.push entryId p val) w).bstate = w.bstate) := by
      intro entryId p val w hb hval hid
      by_cases hst : w.stuck = true
      · rw [step_stuck _ _ _ hst]
        exact ⟨CbCore.same (le_of_lt hid), fun _ => rfl⟩
      · rw [step_succ n _ w (by revert hst; cases w.stuck <;> simp)]
        simp only []
        have A : CbCore entryId w { w with subs := w.subs ++ [⟨entryId, true, p⟩] } :=
          CbCore.pushEntry hid
        cases val with
        | none => exact ⟨A, fun _ => rfl⟩
        | some v =>
          have hdv : w.data = some v := by
            rcases hval with h | h
            · exact absurd h (by simp)
            · exact h.symm
          simp only []
          split
          · rename_i hidl
            have A2 : CbCore entryId w
                { w with
                  subs := w.subs ++ [⟨entryId, true, p⟩],
                  bstate := .subscribing,
                  log := w.log ++ [Event.invoke entryId v] } :=
              CbCore.postLog A [Event.invoke entryId v] rfl rfl rfl rfl rfl rfl rfl
                (by
                  intro k u hk
                  simp at hk
                  exact ⟨le_of_eq hk.1.symm, by rw [hdv, hk.2]⟩)
            obtain ⟨C, hbc⟩ := ihProg v p
              { w with
                subs := w.subs ++ [⟨entryId, true, p⟩],
                bstate := .subscribing,
                log := w.log ++ [Event.invoke entryId v] }
              hb (by simp)
            have C2 := A2.trans C
            split
            · exact ⟨C2, fun hni => absurd hidl hni⟩
            · exact ⟨CbCore.post C2 rfl rfl rfl rfl rfl rfl rfl,
                fun hni => absurd hidl hni⟩
          · exact ⟨A, fun _ => rfl⟩
          · rename_i hsub
            have A2 : CbCore entryId w
                { w with
                  subs := w.subs ++ [⟨entryId, true, p⟩],
                  log := w.log ++ [Event.invoke entryId v] } :=
              CbCore.postLog A [Event.invoke entryId v] rfl rfl rfl rfl rfl rfl rfl
                (by
                  intro k u hk
                  simp at hk
                  exact ⟨le_of_eq hk.1.symm, by rw [hdv, hk.2]⟩)
            obtain ⟨C, hbc⟩ := ihProg v p
              { w with
                subs := w.subs ++ [⟨entryId, true, p⟩],
                log := w.log ++ [Event.invoke entryId v] }
              hb (by simp [hsub])
            exact ⟨A2.trans C, fun hni => hbc⟩
    exact ⟨hProg, hAct, hForE, hPush⟩

end Wasmadeus

namespace Wasmadeus

variable {T : Type}

/-- Shape of one step of a callback program. -/
theorem prog_shape_nil (n : Nat) (v : T) (w : World T) (hst : w.stuck = false) :
    step (n + 1) (.prog v []) w = w := by
  rw [step_succ n _ w hst]

theorem prog_shape_cons (n : Nat) (v : T) (a : Act T) (rest : List (Act T))
    (w : World T) (hst : w.stuck = false) :
    step (n + 1) (.prog v (a :: rest)) w =
      step n (.prog v rest) (step n (.act v a) w) := by
  rw [step_succ n _ w hst]

theorem act_shape_set (n : Nat) (v v2 : T) (w : World T) (hst : w.stuck = false) :
    step (n + 1) (.act v (.trySet v2)) w =
      (let w1 := step n (.set v2) w
       if w1.stuck then w1 else { w1 with log := w1.log ++ [setEvent (setResult w)] }) := by
  rw [step_succ n _ w hst]

theorem act_shape_mutate (n : Nat) (v : T) (f : T → T) (w : World T)
    (hst : w.stuck = false) :
    step (n + 1) (.act v (.tryMutate f)) w =
      (let w1 := step n (.mutate f) w
       if w1.stuck then w1 else { w1 with log := w1.log ++ [mutEvent (mutateResult w)] }) := by
  rw [step_succ n _ w hst]

theorem act_shape_forEach (n : Nat) (v : T) (p : List (Act T)) (w : World T)
    (hst : w.stuck = false) :
    step (n + 1) (.act v (.forEach p)) w =
      step n (.forE p) { w with tokens := w.tokens ++ [some w.nextId] } := by
  rw [step_succ n _ w hst]

theorem act_shape_unsub (n : Nat) (v : T) (slot : Nat) (w : World T)
    (hst : w.stuck = false) :
    step (n + 1) (.act v (.unsubscribe slot)) w = tokenUnsub slot w := by
  rw [step_succ n _ w hst]

theorem set_shape (n : Nat) (v : T) (w : World T) (hst : w.stuck = false) :
    step (n + 1) (.set v) w =
      (if w.busy then w else step n .notifyAll { w with data := some v }) := by
  rw [step_succ n _ w hst]

theorem mutate_shape (n : Nat) (f : T → T) (w : World T) (hst : w.stuck = false) :
    step (n + 1) (.mutate f) w =
      (if w.busy then w
       else
         match w.data with
         | none => w
         | some x => step n .notifyAll { w with data := some (f x) }) := by
  rw [step_succ n _ w hst]

theorem notifyAll_shape (n : Nat) (w : World T) (hst : w.stuck = false) :
    step (n + 1) .notifyAll w =
      (match w.data with
       | none => w
       | some v =>
         let w1 := step n (.bnotify v) { w with sharedBorrows := w.sharedBorrows + 1 }
         if w1.stuck then w1 else { w1 with sharedBorrows := w1.sharedBorrows - 1 }) := by
  rw [step_succ n _ w hst]

theorem bnotify_shape (n : Nat) (v : T) (w : World T) (hst : w.stuck = false) :
    step (n + 1) (.bnotify v) w =
      (if w.bstate ≠ .idling then w
       else
         let w1 := step n (.loop v 0) { w with bstate := .notifying }
         if w1.stuck then w1 else { retain w1 with bstate := .idling }) := by
  rw [step_succ n _ w hst]

theorem loop_shape (n : Nat) (v : T) (i : Nat) (w : World T) (hst : w.stuck = false) :
    step (n + 1) (.loop v i) w =
      (match w.subs[i]? with
       | none => w
       | some s =>
         let w1 :=
           if s.active then
             step n (.prog v s.prog) { w with log := w.log ++ [.invoke s.id v] }
           else w
         step n (.loop v (i + 1)) w1) := by
  rw [step_succ n _ w hst]

theorem forE_shape (n : Nat) (p : List (Act T)) (w : World T) (hst : w.stuck = false) :
    step (n + 1) (.forE p) w =
      (if w.mutBorrow then step n (.push w.nextId p none) { w with nextId := w.nextId + 1 }
       else
         let w1 := step n (.push w.nextId p w.data)
           { w with nextId := w.nextId + 1, sharedBorrows := w.sharedBorrows + 1 }
         if w1.stuck then w1 else { w1 with sharedBorrows := w1.sharedBorrows - 1 }) := by
  rw [step_succ n _ w hst]

/-- Shape of a `push_subscriber` step carrying a value, by broadcast state. -/
theorem push_shape_idling (n entryId : Nat) (p : List (Act T)) (v : T) (w : World T)
    (hst : w.stuck = false) (hbs : w.bstate = .idling) :
    step (n + 1) (.push entryId p (some v)) w =
      (let w1 := step n (.prog v p)
        { w with
          subs := w.subs ++ [⟨entryId, true, p⟩],
          bstate := .subscribing,
          log := w.log ++ [Event.invoke entryId v] }
       if w1.stuck then w1 else { w1 with bstate := .idling }) := by
  obtain ⟨bs, ni, nr, subs, sb, mb, data, toks, lg, stk⟩ := w
  simp only [] at hbs hst
  subst hbs
  subst hst
  simp only [step]
  simp

theorem push_shape_notifying (n entryId : Nat) (p : List (Act T)) (v : T) (w : World T)
    (hst : w.stuck = false) (hbs : w.bstate = .notifying) :
    step (n + 1) (.push entryId p (some v)) w =
      { w with subs := w.subs ++ [⟨entryId, true, p⟩] } := by
  obtain ⟨bs, ni, nr, subs, sb, mb, data, toks, lg, stk⟩ := w
  simp only [] at hbs hst
  subst hbs
  subst hst
  simp only [step]
  simp

theorem push_shape_subscribing (n entryId : Nat) (p : List (Act T)) (v : T) (w : World T)
    (hst : w.stuck = false) (hbs : w.bstate = .subscribing) :
    step (n + 1) (.push entryId p (some v)) w =
      step n (.prog v p)
        { w with
          subs := w.subs ++ [⟨entryId, true, p⟩],
          log := w.log ++ [Event.invoke entryId v] } := by
  obtain ⟨bs, ni, nr, subs, sb, mb, data, toks, lg, stk⟩ := w
  simp only [] at hbs hst
  subst hbs
  subst hst
  simp only [step]
  simp

/-- Shape of a `push_subscriber` step carrying no value. -/
theorem push_shape_none (n entryId : Nat) (p : List (Act T)) (w : World T)
    (hst : w.stuck = false) :
    step (n + 1) (.push entryId p none) w =
      { w with subs := w.subs ++ [⟨entryId, true, p⟩] } := by
  rw [step_succ n _ w hst]

/-- A completed callback-issued job restores the shared borrow count. -/
theorem cbShared_step : ∀ (fuel : Nat),
    (∀ (v : T) (acts : List (Act T)) (w : World T), w.busy →
      (step fuel (.prog v acts) w).stuck = false →
      (step fuel (.prog v acts) w).sharedBorrows = w.sharedBorrows) ∧
    (∀ (v : T) (a : Act T) (w : World T), w.busy →
      (step fuel (.act v a) w).stuck = false →
      (step fuel (.act v a) w).sharedBorrows = w.sharedBorrows) ∧
    (∀ (p : List (Act T)) (w : World T), w.busy →
      (step fuel (.forE p) w).stuck = false →
      (step fuel (.forE p) w).sharedBorrows = w.sharedBorrows) ∧
    (∀ (entryId : Nat) (p : List (Act T)) (val : Option T) (w : World T), w.busy →
      (step fuel (.push entryId p val) w).stuck = false →
      (step fuel (.push entryId p val) w).sharedBorrows = w.sharedBorrows) := by
  intro fuel
  induction fuel with
  | zero =>
    refine ⟨?_, ?_, ?_, ?_⟩
    · intro v acts w hb hns
      exact (step_zero_not_stuck hns).elim
    · intro v a w hb hns
      exact (step_zero_not_stuck hns).elim
    · intro p w hb hns
      exact (step_zero_not_stuck hns).elim
    · intro entryId p val w hb hns
      exact (step_zero_not_stuck hns).elim
  | succ n ih =>
    obtain ⟨ihProg, ihAct, ihForE, ihPush⟩ := ih
    have hns_stuck : ∀ (w : World T), w.stuck = true → False ∨ True := fun _ _ => Or.inr trivial
    refine ⟨?_, ?_, ?_, ?_⟩
    · intro v acts w hb hns
      by_cases hst : w.stuck = true
      · rw [step_stuck _ _ _ hst]
      · rw [step_succ n _ w (by revert hst; cases w.stuck <;> simp)] at hns ⊢
        cases acts with
        | nil => rfl
        | cons a rest =>
          simp only [] at hns ⊢
          have h1 : (step n (.act v a) w).stuck = false :=
            stuck_of_step hns
          rw [ihProg v rest (step n (.act v a) w) (busy_step n _ w hb) hns,
            ihAct v a w hb h1]
    · intro v a w hb hns
      by_cases hst : w.stuck = true
      · rw [step_stuck _ _ _ hst]
      · rw [step_succ n _ w (by revert hst; cases w.stuck <;> simp)] at hns ⊢
        cases a with
        | trySet v2 =>
          simp only [] at hns ⊢
          rcases set_busy n v2 hb with he | he
          · rw [he] at hns ⊢
            rw [if_neg hst] at hns ⊢
          · rw [he] at hns ⊢
            rw [if_pos rfl] at hns
            simp at hns
        | tryMutate f =>
          simp only [] at hns ⊢
          rcases mutate_busy n f hb with he | he
          · rw [he] at hns ⊢
            rw [if_neg hst] at hns ⊢
          · rw [he] at hns ⊢
            rw [if_pos rfl] at hns
            simp at hns
        | forEach p =>
          simp only [] at hns ⊢
          exact ihForE p { w with tokens := w.tokens ++ [some w.nextId] } hb hns
        | unsubscribe slot =>
          rw [(tokenUnsub_frame slot w).2.2.2.1]
    · intro p w hb hns
      by_cases hst : w.stuck = true
      · rw [step_stuck _ _ _ hst]
      · rw [forE_shape n p w (by revert hst; cases w.stuck <;> simp)] at hns ⊢
        simp only [] at hns ⊢
        split at hns
        · rename_i hmb
          rw [if_pos hmb]
          exact ihPush w.nextId p none { w with nextId := w.nextId + 1 } (Or.inl hmb) hns
        · rename_i hmb
          rw [if_neg hmb]
          split at hns
          · rename_i hw1
            rw [hw1] at hns
            exact absurd hns (by simp)
          · rename_i hw1
            rw [if_neg hw1]
            have hpre := ihPush w.nextId p w.data
              { w with nextId := w.nextId + 1, sharedBorrows := w.sharedBorrows + 1 }
              (Or.inr (by simp)) (by
                revert hw1
                cases hcs : (step n (.push w.nextId p w.data)
                  { w with nextId := w.nextId + 1, sharedBorrows := w.sharedBorrows + 1 }).stuck
                · simp
                · simp)
            simp only [] at hpre
            show (step n (.push w.nextId p w.data)
              { w with nextId := w.nextId + 1, sharedBorrows := w.sharedBorrows + 1
                }).sharedBorrows - 1 = w.sharedBorrows
            omega
    · intro entryId p val w hb hns
      by_cases hst : w.stuck = true
      · rw [step_stuck _ _ _ hst]
      · have hstf : w.stuck = false := by revert hst; cases w.stuck <;> simp
        cases val with
        | none =>
          rw [push_shape_none n entryId p w hstf]
        | some v =>
          cases hbs : w.bstate with
          | idling =>
            rw [push_shape_idling n entryId p v w hstf hbs] at hns ⊢
            simp only [] at hns ⊢
            split at hns
            · rename_i hw1
              rw [hw1] at hns
              exact absurd hns (by simp)
            · rename_i hw1
              rw [if_neg hw1]
              exact ihProg v p _ hb (by
                revert hw1
                cases hcs : (step n (.prog v p)
                  { w with
                    subs := w.subs ++ [⟨entryId, true, p⟩],
                    bstate := .subscribing,
                    log := w.log ++ [Event.invoke entryId v] }).stuck
                · simp
                · simp)
          | notifying =>
            rw [push_shape_notifying n entryId p v w hstf hbs]
          | subscribing =>
            rw [push_shape_subscribing n entryId p v w hstf hbs] at hns ⊢
            exact ihProg v p _ hb hns

end Wasmadeus

namespace Wasmadeus

variable {T : Type}

theorem invokeIds_setEvent (r : Except SignalUpdatingError Unit) :
    invokeIds ([setEvent r] : List (Event T)) = [] := by
  cases r <;> simp [invokeIds, setEvent]

theorem invokeIds_mutEvent (r : Except SignalUpdatingError Unit) :
    invokeIds ([mutEvent r] : List (Event T)) = [] := by
  cases r <;> simp [invokeIds, mutEvent]

/-- While a broadcast is mid-notification, a callback-issued job produces
no `invoke` events: `push_subscriber` suppresses immediate delivery
(`State::Notifying => ()`), and nested `try_set`/`try_mutate` fail on the
borrowed cell before reaching `notify_all`. -/
theorem notifyingLog : ∀ (fuel : Nat),
    (∀ (v : T) (acts : List (Act T)) (w : World T), w.busy → w.bstate = .notifying →
      invokeIds (step fuel (.prog v acts) w).log = invokeIds w.log) ∧
    (∀ (v : T) (a : Act T) (w : World T), w.busy → w.bstate = .notifying →
      invokeIds (step fuel (.act v a) w).log = invokeIds w.log) ∧
    (∀ (p : List (Act T)) (w : World T), w.busy → w.bstate = .notifying →
      invokeIds (step fuel (.forE p) w).log = invokeIds w.log) ∧
    (∀ (entryId : Nat) (p : List (Act T)) (val : Option T) (w : World T),
      w.busy → w.bstate = .notifying →
      invokeIds (step fuel (.push entryId p val) w).log = invokeIds w.log) := by
  intro fuel
  induction fuel with
  | zero =>
    refine ⟨?_, ?_, ?_, ?_⟩ <;>
      · intros
        simp only [step]
        split <;> rfl
  | succ n ih =>
    obtain ⟨ihProg, ihAct, ihForE, ihPush⟩ := ih
    refine ⟨?_, ?_, ?_, ?_⟩
    · intro v acts w hb hbs
      by_cases hst : w.stuck = true
      · rw [step_stuck _ _ _ hst]
      · have hstf : w.stuck = false := by revert hst; cases w.stuck <;> simp
        cases acts with
        | nil => rw [prog_shape_nil n v w hstf]
        | cons a rest =>
          rw [prog_shape_cons n v a rest w hstf]
          have hbs1 : (step n (.act v a) w).bstate = w.bstate :=
            ((cbCore_step n).2.1 v a w hb (by rw [hbs]; simp)).2
          rw [ihProg v rest (step n (.act v a) w) (busy_step n _ w hb)
            (by rw [hbs1]; exact hbs),
            ihAct v a w hb hbs]
    · intro v a w hb hbs
      by_cases hst : w.stuck = true
      · rw [step_stuck _ _ _ hst]
      · have hstf : w.stuck = false := by revert hst; cases w.stuck <;> simp
        cases a with
        | trySet v2 =>
          rw [act_shape_set n v v2 w hstf]
          simp only []
          rcases set_busy n v2 hb with he | he
          · rw [he, if_neg hst]
            rw [show ({ w with log := w.log ++ [setEvent (setResult w)] } : World T).log =
              w.log ++ [setEvent (setResult w)] from rfl]
            rw [invokeIds_append, invokeIds_setEvent]
            simp
          · rw [he, if_pos rfl]
        | tryMutate f =>
          rw [act_shape_mutate n v f w hstf]
          simp only []
          rcases mutate_busy n f hb with he | he
          · rw [he, if_neg hst]
            rw [show ({ w with log := w.log ++ [mutEvent (mutateResult w)] } : World T).log =
              w.log ++ [mutEvent (mutateResult w)] from rfl]
            rw [invokeIds_append, invokeIds_mutEvent]
            simp
          · rw [he, if_pos rfl]
        | forEach p =>
          rw [act_shape_forEach n v p w hstf]
          exact ihForE p { w with tokens := w.tokens ++ [some w.nextId] } hb hbs
        | unsubscribe slot =>
          rw [act_shape_unsub n v slot w hstf]
          rw [(tokenUnsub_frame slot w).2.2.2.2.1]
    · intro p w hb hbs
      by_cases hst : w.stuck = true
      · rw [step_stuck _ _ _ hst]
      · have hstf : w.stuck = false := by revert hst; cases w.stuck <;> simp
        rw [forE_shape n p w hstf]
        simp only []
        split
        · rename_i hmb
          exact ihPush w.nextId p none { w with nextId := w.nextId + 1 } (Or.inl hmb) hbs
        · have h1 := ihPush w.nextId p w.data
            { w with nextId := w.nextId + 1, sharedBorrows := w.sharedBorrows + 1 }
            (Or.inr (by simp)) hbs
          split
          · exact h1
          · exact h1
    · intro entryId p val w hb hbs
      by_cases hst : w.stuck = true
      · rw [step_stuck _ _ _ hst]
      · have hstf : w.stuck = false := by revert hst; cases w.stuck <;> simp
        cases val with
        | none => rw [push_shape_none n entryId p w hstf]
        | some v => rw [push_shape_notifying n entryId p v w hstf hbs]

end Wasmadeus


namespace Wasmadeus

variable {T : Type}

theorem invoke_mem_invokeIds {k : Nat} {u : T} {E : List (Event T)}
    (h : Event.invoke k u ∈ E) : k ∈ invokeIds E := by
  induction E with
  | nil => simp at h
  | cons e rest ih =>
    rcases List.mem_cons.mp h with he | he
    · rw [← he]
      simp [invokeIds]
    · cases e with
      | invoke j2 u2 =>
        simp only [invokeIds, List.filterMap_cons]
        exact List.mem_cons_of_mem _ (ih he)
      | setOk => simpa [invokeIds] using ih he
      | setErr => simpa [invokeIds] using ih he
      | mutOk => simpa [invokeIds] using ih he
      | mutErr => simpa [invokeIds] using ih he

theorem eq_nil_of_append_eq_self {a b : List Nat} (h : a ++ b = a) : b = [] := by
  have h2 := congrArg List.length h
  simp at h2
  exact h2

theorem getElem?_none_len {l : List (Subscriber T)} {i : Nat} (h : l[i]? = none) :
    l.length ≤ i := by
  by_contra hc
  rw [List.getElem?_eq_getElem (by omega)] at h
  exact absurd h (by simp)

/-- What one notification walk (the `while i < subscribers.len()` loop of
`Broadcast::notify`, starting at index `i`) guarantees, relating the world
at loop entry to the world at loop exit.  The log gains events whose
`invoke` entries all carry the walked value, have strictly increasing
subscriber ids (hence no id is invoked twice), and name either an entry at
a position at least `i` of the registry at entry or a subscriber created
during the walk; conversely, if the walk completed, every entry at a
position at least `i` that is still active at the end was invoked, and so
was every subscriber created during the walk that is still active at the
end. -/
structure WalkOut (v : T) (i : Nat) (w w2 : World T) : Prop where
  mutB : w2.mutBorrow = w.mutBorrow
  dataE : w2.data = w.data
  next : w.nextId ≤ w2.nextId
  bst : w2.bstate = w.bstate
  borrows : w2.stuck = false → w2.sharedBorrows = w.sharedBorrows
  subsLen : w.subs.length ≤ w2.subs.length
  subsPre : ∀ (j : Nat) (s : Subscriber T), w.subs[j]? = some s →
      ∃ s2, w2.subs[j]? = some s2 ∧ s2.id = s.id ∧ s2.prog = s.prog ∧
        (s2.active = true → s.active = true)
  subsNew : ∀ (j : Nat) (s : Subscriber T), w.subs.length ≤ j → w2.subs[j]? = some s →
      w.nextId ≤ s.id
  retainM : w.needsRetain = true → w2.needsRetain = true
  sorted2 : sortedIdsB w2.subs = true
  allLt2 : allLtB w2.subs w2.nextId = true
  tokPre : ∀ (j : Nat), j < w.tokens.length →
      w2.tokens[j]? = w.tokens[j]? ∨ w2.tokens[j]? = some none
  logPack : ∃ E, w2.log = w.log ++ E ∧
      (∀ (k : Nat) (u : T), Event.invoke k u ∈ E → u = v) ∧
      List.Chain' (fun a b => a < b) (invokeIds E) ∧
      (∀ k ∈ invokeIds E,
        (∃ (j : Nat) (s : Subscriber T), i ≤ j ∧ w.subs[j]? = some s ∧ s.id = k) ∨
        w.nextId ≤ k) ∧
      (w2.stuck = false →
        (∀ (j : Nat) (s2 : Subscriber T), i ≤ j → j < w.subs.length →
          w2.subs[j]? = some s2 → s2.active = true → s2.id ∈ invokeIds E) ∧
        (∀ (j : Nat) (s2 : Subscriber T), w2.subs[j]? = some s2 →
          w.nextId ≤ s2.id → s2.active = true → s2.id ∈ invokeIds E))

/-- A stuck-marked world as walk exit, when the walk could not run. -/
theorem walkOut_mark {v : T} {i : Nat} {w : World T}
    (hsort : sortedIdsB w.subs = true) (hlt : allLtB w.subs w.nextId = true) :
    WalkOut v i w { w with stuck := true } where
  mutB := rfl
  dataE := rfl
  next := le_refl _
  bst := rfl
  borrows := fun h => absurd h (by simp)
  subsLen := le_refl _
  subsPre := fun j s h => ⟨s, h, rfl, rfl, fun hx => hx⟩
  subsNew := fun j s hj hjs => by
    have hj2 : w.subs[j]? = some s := hjs
    rw [List.getElem?_eq_none hj] at hj2
    exact absurd hj2 (by simp)
  retainM := fun h => h
  sorted2 := hsort
  allLt2 := hlt
  tokPre := fun j hj => Or.inl rfl
  logPack := ⟨[], by simp, by simp, by simp [invokeIds], by simp [invokeIds],
    fun hns => absurd hns (by simp)⟩

/-- A world whose walk already started stuck. -/
theorem walkOut_selfStuck {v : T} {i : Nat} {w : World T} (hst : w.stuck = true)
    (hsort : sortedIdsB w.subs = true) (hlt : allLtB w.subs w.nextId = true) :
    WalkOut v i w w where
  mutB := rfl
  dataE := rfl
  next := le_refl _
  bst := rfl
  borrows := fun _ => rfl
  subsLen := le_refl _
  subsPre := fun j s h => ⟨s, h, rfl, rfl, fun hx => hx⟩
  subsNew := fun j s hj hjs => by
    have hj2 : w.subs[j]? = some s := hjs
    rw [List.getElem?_eq_none hj] at hj2
    exact absurd hj2 (by simp)
  retainM := fun h => h
  sorted2 := hsort
  allLt2 := hlt
  tokPre := fun j hj => Or.inl rfl
  logPack := ⟨[], by simp, by simp, by simp [invokeIds], by simp [invokeIds],
    fun hns => absurd hst (by rw [hns]; simp)⟩

/-- Walk exit at the end of the registry. -/
theorem walkOut_done {v : T} {i : Nat} {w : World T} (hnone : w.subs[i]? = none)
    (hsort : sortedIdsB w.subs = true) (hlt : allLtB w.subs w.nextId = true) :
    WalkOut v i w w where
  mutB := rfl
  dataE := rfl
  next := le_refl _
  bst := rfl
  borrows := fun _ => rfl
  subsLen := le_refl _
  subsPre := fun j s h => ⟨s, h, rfl, rfl, fun hx => hx⟩
  subsNew := fun j s hj hjs => by
    have hj2 : w.subs[j]? = some s := hjs
    rw [List.getElem?_eq_none hj] at hj2
    exact absurd hj2 (by simp)
  retainM := fun h => h
  sorted2 := hsort
  allLt2 := hlt
  tokPre := fun j hj => Or.inl rfl
  logPack := ⟨[], by simp, by simp, by simp [invokeIds], by simp [invokeIds],
    fun hns => ⟨fun j s2 hij hjl hjs hact => by
        have hlen := getElem?_none_len hnone
        omega,
      fun j s2 hjs hge hact => by
        have hmem : s2 ∈ w.subs := by
          have hl := getElem?_some_lt hjs
          rw [List.getElem?_eq_getElem hl] at hjs
          injection hjs with hjs2
          rw [← hjs2]
          exact List.getElem_mem hl
        have := (allLtB_iff w.subs w.nextId).mp hlt s2 hmem
        omega⟩⟩

end Wasmadeus

namespace Wasmadeus

variable {T : Type}

theorem mem_of_getElemSome {l : List (Subscriber T)} {j : Nat} {s : Subscriber T}
    (h : l[j]? = some s) : s ∈ l := by
  have hl := getElem?_some_lt h
  rw [List.getElem?_eq_getElem hl] at h
  injection h with h2
  rw [← h2]
  exact List.getElem_mem hl

theorem walk_step : ∀ (fuel : Nat) (v : T) (i : Nat) (w : World T),
    w.busy → w.bstate = .notifying → sortedIdsB w.subs = true →
    allLtB w.subs w.nextId = true →
    WalkOut v i w (step fuel (.loop v i) w) := by
  intro fuel
  induction fuel with
  | zero =>
    intro v i w hb hbs hsort hlt
    by_cases hst : w.stuck = true
    · rw [step_stuck _ _ _ hst]
      exact walkOut_selfStuck hst hsort hlt
    · rw [show step 0 (Job.loop v i) w = { w with stuck := true } by simp [step, hst]]
      exact walkOut_mark hsort hlt
  | succ n ih =>
    intro v i w hb hbs hsort hlt
    by_cases hst : w.stuck = true
    · rw [step_stuck _ _ _ hst]
      exact walkOut_selfStuck hst hsort hlt
    · have hstf : w.stuck = false := by revert hst; cases w.stuck <;> simp
      rw [loop_shape n v i w hstf]
      cases hsome : w.subs[i]? with
      | none =>
        exact walkOut_done hsome hsort hlt
      | some s =>
        simp only []
        by_cases hact : s.active = true
        · rw [if_pos hact]
          have hCb := (cbCore_step n).1 v s.prog
            { w with log := w.log ++ [Event.invoke s.id v] }
            hb (by show w.bstate ≠ BState.idling; rw [hbs]; simp)
          obtain ⟨C, hbstC⟩ := hCb
          have hNoInv : invokeIds (step n (.prog v s.prog)
              { w with log := w.log ++ [Event.invoke s.id v] }).log =
              invokeIds ({ w with log := w.log ++ [Event.invoke s.id v] } : World T).log :=
            (notifyingLog n).1 v s.prog _ hb hbs
          obtain ⟨hsort1, hlt1⟩ := C.sortedP hsort hlt
          have hbusy1 := busy_step n (.prog v s.prog)
            { w with log := w.log ++ [Event.invoke s.id v] } hb
          have hbst1 : (step n (.prog v s.prog)
              { w with log := w.log ++ [Event.invoke s.id v] }).bstate = .notifying := by
            rw [hbstC]
            exact hbs
          have W := ih v (i + 1)
            (step n (.prog v s.prog) { w with log := w.log ++ [Event.invoke s.id v] })
            hbusy1 hbst1 hsort1 hlt1
          obtain ⟨EC, hEC, hECinv⟩ := C.logPre
          obtain ⟨EW, hEW, hWval, hWchain, hWprov, hWcomp⟩ := W.logPack
          have hECnil : invokeIds EC = [] := by
            rw [hEC] at hNoInv
            rw [invokeIds_append] at hNoInv
            exact eq_nil_of_append_eq_self hNoInv
          have hsid_lt : s.id < w.nextId :=
            (allLtB_iff _ _).mp hlt s (mem_of_getElemSome hsome)
          -- relate ids invoked during the tail of the walk back to `w`
          have hEWrel : ∀ k ∈ invokeIds EW,
              (∃ (j : Nat) (s3 : Subscriber T), i + 1 ≤ j ∧ w.subs[j]? = some s3 ∧
                s3.id = k) ∨ w.nextId ≤ k := by
            intro k hk
            rcases hWprov k hk with ⟨j, s3, hij, hjs, hid⟩ | hge
            · by_cases hjl : j < w.subs.length
              · obtain ⟨s0, hs0⟩ : ∃ s0, w.subs[j]? = some s0 := by
                  rw [List.getElem?_eq_getElem hjl]
                  exact ⟨_, rfl⟩
                obtain ⟨s1, hs1, hid1, _, _⟩ := C.subsPre j s0 hs0
                rw [hjs] at hs1
                injection hs1 with h13
                left
                refine ⟨j, s0, hij, hs0, ?_⟩
                rw [← hid, h13, hid1]
              · right
                have hcn : w.nextId ≤ s3.id :=
                  C.subsNew j s3 (by show w.subs.length ≤ j; omega) hjs
                omega
            · right
              have hcn : w.nextId ≤ (step n (.prog v s.prog)
                  { w with log := w.log ++ [Event.invoke s.id v] }).nextId := C.next
              omega
          have hlt_head : ∀ k ∈ invokeIds EW, s.id < k := by
            intro k hk
            rcases hEWrel k hk with ⟨j, s3, hij, hjs, hid⟩ | hge
            · rw [← hid]
              exact sorted_get_lt hsort (by omega) hsome hjs
            · omega
          refine {
            mutB := by rw [W.mutB, C.mutB]
            dataE := by rw [W.dataE, C.data]
            next := le_trans C.next W.next
            bst := by rw [W.bst, hbstC]
            borrows := ?_
            subsLen := le_trans C.subsLen W.subsLen
            subsPre := ?_
            subsNew := ?_
            retainM := fun h => W.retainM (C.retainM h)
            sorted2 := W.sorted2
            allLt2 := W.allLt2
            tokPre := ?_
            logPack := ?_ }
          · intro hns
            have hns1 : (step n (.prog v s.prog)
                { w with log := w.log ++ [Event.invoke s.id v] }).stuck = false :=
              stuck_of_step hns
            rw [W.borrows hns]
            exact (cbShared_step n).1 v s.prog _ hb hns1
          · intro j s0 h0
            obtain ⟨s1, hs1, hid1, hp1, ha1⟩ := C.subsPre j s0 h0
            obtain ⟨s2, hs2, hid2, hp2, ha2⟩ := W.subsPre j s1 hs1
            exact ⟨s2, hs2, by rw [hid2, hid1], by rw [hp2, hp1],
              fun hx => ha1 (ha2 hx)⟩
          · intro j s2 hj hjs
            by_cases hjl : j < (step n (.prog v s.prog)
                { w with log := w.log ++ [Event.invoke s.id v] }).subs.length
            · obtain ⟨s1, hs1⟩ : ∃ s1, (step n (.prog v s.prog)
                  { w with log := w.log ++ [Event.invoke s.id v] }).subs[j]? = some s1 := by
                rw [List.getElem?_eq_getElem hjl]
                exact ⟨_, rfl⟩
              obtain ⟨s2', hs2', hid2, _, _⟩ := W.subsPre j s1 hs1
              rw [hjs] at hs2'
              injection hs2' with h22
              have hcn : w.nextId ≤ s1.id := C.subsNew j s1 hj hs1
              rw [h22, hid2]
              exact hcn
            · have hw1 : (step n (.prog v s.prog)
                  { w with log := w.log ++ [Event.invoke s.id v] }).nextId ≤ s2.id :=
                W.subsNew j s2 (Nat.le_of_not_lt hjl) hjs
              have h2 : w.nextId ≤ (step n (.prog v s.prog)
                  { w with log := w.log ++ [Event.invoke s.id v] }).nextId := C.next
              omega
          · intro j hj
            have hjlen : j < (step n (.prog v s.prog)
                { w with log := w.log ++ [Event.invoke s.id v] }).tokens.length :=
              lt_of_lt_of_le hj C.tokLen
            rcases W.tokPre j hjlen with h | h
            · rcases C.tokPre j hj with h2 | h2
              · exact Or.inl (by rw [h, h2])
              · exact Or.inr (by rw [h, h2])
            · exact Or.inr h
          · have hids2 : invokeIds ([Event.invoke s.id v] ++ EC ++ EW) =
                s.id :: invokeIds EW := by
              rw [invokeIds_append, invokeIds_append, hECnil]
              simp [invokeIds]
            refine ⟨[Event.invoke s.id v] ++ EC ++ EW, ?_, ?_, ?_, ?_, ?_⟩
            · rw [hEW, hEC]
              show (w.log ++ [Event.invoke s.id v] ++ EC) ++ EW =
                w.log ++ ([Event.invoke s.id v] ++ EC ++ EW)
              simp [List.append_assoc]
            · intro k u hk
              rcases List.mem_append.mp hk with hk2 | hk2
              · rcases List.mem_append.mp hk2 with hk3 | hk3
                · simp at hk3
                  exact hk3.2
                · exact absurd (invoke_mem_invokeIds hk3) (by rw [hECnil]; simp)
              · exact hWval k u hk2
            · rw [hids2, List.chain'_cons']
              refine ⟨?_, hWchain⟩
              intro b hb2
              exact hlt_head b (List.mem_of_mem_head? hb2)
            · intro k hk
              rw [hids2] at hk
              rcases List.mem_cons.mp hk with hk2 | hk2
              · exact Or.inl ⟨i, s, le_refl i, hsome, hk2.symm⟩
              · rcases hEWrel k hk2 with ⟨j, s3, hij, hjs, hid⟩ | hge
                · exact Or.inl ⟨j, s3, by omega, hjs, hid⟩
                · exact Or.inr hge
            · intro hns
              obtain ⟨Wold, Wnew⟩ := hWcomp hns
              constructor
              · intro j s2 hij hjl hjs hact2
                by_cases hji : j = i
                · subst hji
                  obtain ⟨s1, hs1, hid1, _, _⟩ := C.subsPre j s hsome
                  obtain ⟨s2', hs2', hid2, _, _⟩ := W.subsPre j s1 hs1
                  rw [hjs] at hs2'
                  injection hs2' with h22
                  rw [hids2]
                  rw [show s2.id = s.id by rw [h22, hid2]; exact hid1]
                  exact List.mem_cons_self _ _
                · rw [hids2]
                  refine List.mem_cons_of_mem _ ?_
                  exact Wold j s2 (by omega) (by
                    calc j < w.subs.length := hjl
                      _ ≤ _ := C.subsLen) hjs hact2
              · intro j s2 hjs hge hact2
                rw [hids2]
                by_cases hjl : j < (step n (.prog v s.prog)
                    { w with log := w.log ++ [Event.invoke s.id v] }).subs.length
                · have hjge : w.subs.length ≤ j := by
                    by_contra hc
                    obtain ⟨s0, hs0⟩ : ∃ s0, w.subs[j]? = some s0 := by
                      rw [List.getElem?_eq_getElem (by omega)]
                      exact ⟨_, rfl⟩
                    obtain ⟨s1, hs1, hid1, _, _⟩ := C.subsPre j s0 hs0
                    obtain ⟨s2', hs2', hid2, _, _⟩ := W.subsPre j s1 hs1
                    rw [hjs] at hs2'
                    injection hs2' with h22
                    have hlt0 : s0.id < w.nextId :=
                      (allLtB_iff _ _).mp hlt s0 (mem_of_getElemSome hs0)
                    rw [h22, hid2, hid1] at hge
                    omega
                  have hil : i < w.subs.length := getElem?_some_lt hsome
                  exact List.mem_cons_of_mem _
                    (Wold j s2 (by omega) hjl hjs hact2)
                · have := W.subsNew j s2 (by omega) hjs
                  exact List.mem_cons_of_mem _ (Wnew j s2 hjs this hact2)
        · rw [if_neg hact]
          have W := ih v (i + 1) w hb hbs hsort hlt
          obtain ⟨EW, hEW, hWval, hWchain, hWprov, hWcomp⟩ := W.logPack
          refine {
            mutB := W.mutB, dataE := W.dataE, next := W.next, bst := W.bst
            borrows := W.borrows, subsLen := W.subsLen, subsPre := W.subsPre
            subsNew := W.subsNew, retainM := W.retainM, sorted2 := W.sorted2
            allLt2 := W.allLt2, tokPre := W.tokPre
            logPack := ⟨EW, hEW, hWval, hWchain, ?_, ?_⟩ }
          · intro k hk
            rcases hWprov k hk with ⟨j, s3, hij, hjs, hid⟩ | hge
            · exact Or.inl ⟨j, s3, by omega, hjs, hid⟩
            · exact Or.inr hge
          · intro hns
            obtain ⟨Wold, Wnew⟩ := hWcomp hns
            refine ⟨?_, Wnew⟩
            intro j s2 hij hjl hjs hact2
            by_cases hji : j = i
            · subst hji
              obtain ⟨s2', hs2', hid2, _, ha2⟩ := W.subsPre j s hsome
              rw [hjs] at hs2'
              injection hs2' with h22
              rw [← h22] at ha2
              exact absurd (ha2 hact2) (by
                intro hcontra
                exact hact hcontra)
            · exact Wold j s2 (by omega) hjl hjs hact2

end Wasmadeus

namespace Wasmadeus

variable {T : Type}

/-! ### From the walk to the full notification pass -/

theorem sortedIdsB_iff_chain : ∀ (l : List (Subscriber T)),
    sortedIdsB l = true ↔ List.Chain' (fun a b => a < b) (l.map (fun s => s.id))
  | [] => by simp [sortedIdsB]
  | [_] => by simp [sortedIdsB]
  | a :: b :: rest => by
    rw [sortedIdsB_cons, sortedIdsB_iff_chain (b :: rest)]
    simp [List.chain'_cons]

theorem sortedIdsB_filter (l : List (Subscriber T)) (p : Subscriber T → Bool)
    (h : sortedIdsB l = true) : sortedIdsB (l.filter p) = true := by
  rw [sortedIdsB_iff_chain] at h ⊢
  rw [List.chain'_iff_pairwise] at h ⊢
  exact h.sublist ((l.filter_sublist).map _)

theorem allLtB_filter (l : List (Subscriber T)) (p : Subscriber T → Bool) (n : Nat)
    (h : allLtB l n = true) : allLtB (l.filter p) n = true := by
  rw [allLtB_iff] at h ⊢
  intro s hs
  exact h s (List.mem_of_mem_filter hs)

theorem retain_subs_cases (w : World T) :
    (retain w).subs = w.subs ∨ (retain w).subs = w.subs.filter (fun s => s.active) := by
  unfold retain
  split
  · exact Or.inr rfl
  · exact Or.inl rfl

theorem count_le_one_of_chain {l : List Nat}
    (h : List.Chain' (fun a b => a < b) l) (k : Nat) : List.count k l ≤ 1 := by
  have hp : l.Pairwise (fun a b => a < b) := List.chain'_iff_pairwise.mp h
  have hnd : l.Nodup := hp.imp (fun hab => Nat.ne_of_lt hab)
  exact List.nodup_iff_count_le_one.mp hnd k

theorem exists_getElem?_of_mem : ∀ {l : List (Subscriber T)} {a : Subscriber T},
    a ∈ l → ∃ (j : Nat), l[j]? = some a := by
  intro l
  induction l with
  | nil => intro a h; exact absurd h (by simp)
  | cons b rest ih =>
    intro a h
    rcases List.mem_cons.mp h with h2 | h2
    · exact ⟨0, by rw [h2]; simp⟩
    · obtain ⟨j, hj⟩ := ih h2
      exact ⟨j + 1, by simpa using hj⟩

theorem mutBorrow_false_of_not_busy {w : World T} (h : ¬w.busy) :
    w.mutBorrow = false := by
  unfold World.busy at h
  push_neg at h
  rcases h with ⟨h1, _⟩
  revert h1
  cases w.mutBorrow <;> simp

/-- What one complete notification pass (`Broadcast::notify` reached through
`RawSignal::notify_all`) guarantees between the world at entry and the
world at exit: the data cell and the exclusive borrow flag are untouched
and ids only grow; when the pass completed (no fuel exhaustion), the
broadcast state and the shared borrow count are restored, the registry is
again sorted and bounded by `nextId`, and the log grew by a batch of events
whose `invoke`s all carry the broadcast value and strictly increasing
subscriber ids (so no subscriber is invoked twice), each invoked id naming
a registry entry present at entry or a subscriber created during the pass;
conversely every subscriber still active at exit was invoked. -/
structure PassOut (u : T) (w w2 : World T) : Prop where
  dataE : w2.data = w.data
  mutB : w2.mutBorrow = w.mutBorrow
  next : w.nextId ≤ w2.nextId
  bst : w2.stuck = false → w2.bstate = w.bstate
  borrows : w2.stuck = false → w2.sharedBorrows = w.sharedBorrows
  sorted2 : w2.stuck = false → sortedIdsB w2.subs = true
  allLt2 : w2.stuck = false → allLtB w2.subs w2.nextId = true
  logPack : ∃ E, w2.log = w.log ++ E ∧
      (∀ (k : Nat) (x : T), Event.invoke k x ∈ E → x = u) ∧
      List.Chain' (fun a b => a < b) (invokeIds E) ∧
      (∀ k ∈ invokeIds E, (∃ s ∈ w.subs, s.id = k) ∨ w.nextId ≤ k) ∧
      (w2.stuck = false → ∀ s2 ∈ w2.subs, s2.active = true → s2.id ∈ invokeIds E)

/-- A pass cut short before doing anything (fuel ran out at once). -/
theorem passOut_stuckMark (u : T) (w : World T) :
    PassOut u w { w with stuck := true } where
  dataE := rfl
  mutB := rfl
  next := le_refl _
  bst := fun h => absurd h (by simp)
  borrows := fun h => absurd h (by simp)
  sorted2 := fun h => absurd h (by simp)
  allLt2 := fun h => absurd h (by simp)
  logPack := ⟨[], by simp, by simp, by simp [invokeIds], by simp [invokeIds],
    fun h => absurd h (by simp)⟩

/-- A pass on a world that was already stuck. -/
theorem passOut_self (u : T) (w : World T) (h : w.stuck = true) : PassOut u w w where
  dataE := rfl
  mutB := rfl
  next := le_refl _
  bst := fun h2 => absurd h (by rw [h2]; simp)
  borrows := fun h2 => absurd h (by rw [h2]; simp)
  sorted2 := fun h2 => absurd h (by rw [h2]; simp)
  allLt2 := fun h2 => absurd h (by rw [h2]; simp)
  logPack := ⟨[], by simp, by simp, by simp [invokeIds], by simp [invokeIds],
    fun h2 => absurd h (by rw [h2]; simp)⟩

/-- `Broadcast::notify` (`src/src/signal/raw/broadcast.rs`, lines 137–161)
reached in the `Idling` state while the data cell is borrowed: the whole
pass — transition to `Notifying`, index walk, `retain`, transition back to
`Idling` — satisfies `PassOut`. -/
theorem bnotify_pass (fuel : Nat) (u : T) (w : World T) (hb : w.busy)
    (hbs : w.bstate = .idling) (hsort : sortedIdsB w.subs = true)
    (hlt : allLtB w.subs w.nextId = true) :
    PassOut u w (step fuel (.bnotify u) w) := by
  by_cases hst : w.stuck = true
  · rw [step_stuck _ _ _ hst]
    exact passOut_self u w hst
  · have hst2 : w.stuck = false := by revert hst; cases w.stuck <;> simp
    cases fuel with
    | zero =>
      rw [show step 0 (Job.bnotify u) w = { w with stuck := true } by
        simp [step, hst2]]
      exact passOut_stuckMark u w
    | succ n =>
      rw [bnotify_shape n u w hst2, if_neg (by rw [hbs]; simp)]
      have W := walk_step n u 0 { w with bstate := .notifying } hb rfl hsort hlt
      show PassOut u w
        (if (step n (.loop u 0) { w with bstate := .notifying }).stuck
         then step n (.loop u 0) { w with bstate := .notifying }
         else { retain (step n (.loop u 0) { w with bstate := .notifying }) with
                  bstate := .idling })
      by_cases h1 : (step n (.loop u 0) { w with bstate := .notifying }).stuck = true
      · rw [if_pos h1]
        refine { dataE := W.dataE, mutB := W.mutB, next := W.next,
                 bst := fun h => by rw [h] at h1; simp at h1,
                 borrows := fun h => by rw [h] at h1; simp at h1,
                 sorted2 := fun h => by rw [h] at h1; simp at h1,
                 allLt2 := fun h => by rw [h] at h1; simp at h1,
                 logPack := ?_ }
        obtain ⟨E, hE, hvals, hchain, hprov, _⟩ := W.logPack
        refine ⟨E, hE, hvals, hchain, ?_, fun h => by rw [h] at h1; simp at h1⟩
        intro k hk
        rcases hprov k hk with ⟨j, s, _, hjs, hid⟩ | hge
        · exact Or.inl ⟨s, mem_of_getElemSome hjs, hid⟩
        · exact Or.inr hge
      · have hf : (step n (.loop u 0) { w with bstate := .notifying }).stuck = false := by
          revert h1
          cases (step n (.loop u 0) { w with bstate := .notifying }).stuck <;> simp
        rw [if_neg (by rw [hf]; simp)]
        obtain ⟨rB, rD, rS, rSh, rL, rN, rSt, rT⟩ :=
          retain_frame (step n (.loop u 0) { w with bstate := .notifying })
        obtain ⟨E, hE, hvals, hchain, hprov, hcomp⟩ := W.logPack
        refine { dataE := ?_, mutB := ?_, next := ?_, bst := ?_,
                 borrows := ?_, sorted2 := ?_, allLt2 := ?_, logPack := ?_ }
        · show (retain _).data = w.data
          rw [rD]
          exact W.dataE
        · show (retain _).mutBorrow = w.mutBorrow
          rw [rB]
          exact W.mutB
        · show w.nextId ≤ (retain _).nextId
          rw [rN]
          exact W.next
        · intro _
          show BState.idling = w.bstate
          rw [hbs]
        · intro _
          show (retain _).sharedBorrows = w.sharedBorrows
          rw [rSh]
          exact W.borrows hf
        · intro _
          show sortedIdsB (retain _).subs = true
          rcases retain_subs_cases (step n (.loop u 0) { w with bstate := .notifying })
            with h | h
          · rw [h]; exact W.sorted2
          · rw [h]; exact sortedIdsB_filter _ _ W.sorted2
        · intro _
          show allLtB (retain _).subs (retain _).nextId = true
          rw [rN]
          rcases retain_subs_cases (step n (.loop u 0) { w with bstate := .notifying })
            with h | h
          · rw [h]; exact W.allLt2
          · rw [h]; exact allLtB_filter _ _ _ W.allLt2
        · refine ⟨E, ?_, hvals, hchain, ?_, ?_⟩
          · show (retain _).log = w.log ++ E
            rw [rL]
            exact hE
          · intro k hk
            rcases hprov k hk with ⟨j, s, _, hjs, hid⟩ | hge
            · exact Or.inl ⟨s, mem_of_getElemSome hjs, hid⟩
            · exact Or.inr hge
          · intro _ s2 hmem hact
            have hmem2 : s2 ∈ (retain (step n (.loop u 0)
                { w with bstate := .notifying })).subs := hmem
            have hmem3 : s2 ∈ (step n (.loop u 0)
                { w with bstate := .notifying }).subs := by
              rcases retain_subs_cases (step n (.loop u 0)
                  { w with bstate := .notifying }) with h | h
              · rw [h] at hmem2; exact hmem2
              · rw [h] at hmem2; exact List.mem_of_mem_filter hmem2
            obtain ⟨j, hj⟩ := exists_getElem?_of_mem hmem3
            obtain ⟨Cold, Cnew⟩ := hcomp hf
            by_cases hjl : j < w.subs.length
            · exact Cold j s2 (Nat.zero_le j) hjl hj hact
            · have hge : w.nextId ≤ s2.id :=
                W.subsNew j s2 (Nat.le_of_not_lt hjl) hj
              exact Cnew j s2 hj hge hact

/-- `RawSignal::notify_all` (`src/src/signal/raw/mod.rs`, lines 57–60):
a shared borrow on the data is taken across `Broadcast::notify` and
released afterwards, so the whole call satisfies `PassOut`. -/
theorem notifyAll_pass (fuel : Nat) (u : T) (w : World T)
    (hbs : w.bstate = .idling) (hdata : w.data = some u)
    (hsort : sortedIdsB w.subs = true) (hlt : allLtB w.subs w.nextId = true) :
    PassOut u w (step fuel .notifyAll w) := by
  obtain ⟨bs, ni, nr, subs, sb, mb, data, toks, lg, stk⟩ := w
  simp only [] at hbs hdata hsort hlt
  subst hbs
  subst hdata
  by_cases hst : stk = true
  · subst hst
    rw [step_stuck _ _ _ rfl]
    exact passOut_self u _ rfl
  · have hst2 : stk = false := by revert hst; cases stk <;> simp
    subst hst2
    cases fuel with
    | zero =>
      rw [show step 0 (Job.notifyAll)
          (⟨.idling, ni, nr, subs, sb, mb, some u, toks, lg, false⟩ : World T) =
          { (⟨.idling, ni, nr, subs, sb, mb, some u, toks, lg, false⟩ : World T) with
            stuck := true } by simp [step]]
      exact passOut_stuckMark u _
    | succ n =>
      rw [notifyAll_shape n _ rfl]
      have P := bnotify_pass n u
        (⟨.idling, ni, nr, subs, sb + 1, mb, some u, toks, lg, false⟩ : World T)
        (Or.inr (Nat.succ_pos _)) rfl hsort hlt
      show PassOut u _
        (if (step n (.bnotify u)
              (⟨.idling, ni, nr, subs, sb + 1, mb, some u, toks, lg, false⟩ : World T)).stuck
         then step n (.bnotify u)
            (⟨.idling, ni, nr, subs, sb + 1, mb, some u, toks, lg, false⟩ : World T)
         else { step n (.bnotify u)
              (⟨.idling, ni, nr, subs, sb + 1, mb, some u, toks, lg, false⟩ : World T) with
                  sharedBorrows := (step n (.bnotify u)
                    (⟨.idling, ni, nr, subs, sb + 1, mb, some u, toks, lg,
                      false⟩ : World T)).sharedBorrows - 1 })
      by_cases h1 : (step n (.bnotify u)
          (⟨.idling, ni, nr, subs, sb + 1, mb, some u, toks, lg, false⟩ : World T)).stuck = true
      · rw [if_pos h1]
        refine { dataE := P.dataE, mutB := P.mutB, next := P.next,
                 bst := fun h => by rw [h] at h1; simp at h1,
                 borrows := fun h => by rw [h] at h1; simp at h1,
                 sorted2 := fun h => by rw [h] at h1; simp at h1,
                 allLt2 := fun h => by rw [h] at h1; simp at h1,
                 logPack := ?_ }
        obtain ⟨E, hE, hvals, hchain, hprov, _⟩ := P.logPack
        exact ⟨E, hE, hvals, hchain, hprov,
          fun h => by rw [h] at h1; simp at h1⟩
      · have hf : (step n (.bnotify u)
            (⟨.idling, ni, nr, subs, sb + 1, mb, some u, toks, lg,
              false⟩ : World T)).stuck = false := by
          revert h1
          cases (step n (.bnotify u)
            (⟨.idling, ni, nr, subs, sb + 1, mb, some u, toks, lg,
              false⟩ : World T)).stuck <;> simp
        rw [if_neg (by rw [hf]; simp)]
        obtain ⟨E, hE, hvals, hchain, hprov, hcomp⟩ := P.logPack
        refine { dataE := P.dataE, mutB := P.mutB, next := P.next,
                 bst := fun _ => ?_, borrows := fun _ => ?_,
                 sorted2 := fun _ => P.sorted2 hf, allLt2 := fun _ => P.allLt2 hf,
                 logPack := ⟨E, hE, hvals, hchain, hprov, fun _ => hcomp hf⟩ }
        · show (step n (.bnotify u)
            (⟨.idling, ni, nr, subs, sb + 1, mb, some u, toks, lg,
              false⟩ : World T)).bstate = _
          exact P.bst hf
        · show (step n (.bnotify u)
              (⟨.idling, ni, nr, subs, sb + 1, mb, some u, toks, lg,
                false⟩ : World T)).sharedBorrows - 1 = sb
          rw [P.borrows hf]
          show sb + 1 - 1 = sb
          omega

end Wasmadeus

namespace Wasmadeus

variable {T : Type}

/-- `RawSignal::try_set` on an unborrowed cell: the call reports success,
and the write followed by the full notification pass satisfies `PassOut`
relative to the world holding the freshly written value. -/
theorem trySet_pass (fuel : Nat) (v : T) (w : World T) (hst : w.stuck = false)
    (hnb : ¬w.busy) (hbs : w.bstate = .idling) (hsort : sortedIdsB w.subs = true)
    (hlt : allLtB w.subs w.nextId = true) :
    (trySet (fuel + 1) v w).1 = .ok () ∧
      PassOut v { w with data := some v } (trySet (fuel + 1) v w).2 := by
  constructor
  · show setResult w = _
    unfold setResult
    rw [if_neg hnb]
  · show PassOut v _ (step (fuel + 1) (.set v) w)
    rw [set_shape fuel v w hst, if_neg hnb]
    exact notifyAll_pass fuel v { w with data := some v } hbs rfl hsort hlt

/-- `RawSignal::try_mutate` on an unborrowed, initialized cell: the call
reports success, and the in-place update followed by the full notification
pass satisfies `PassOut` relative to the world holding the updated
value. -/
theorem tryMutate_pass (fuel : Nat) (f : T → T) (x : T) (w : World T)
    (hst : w.stuck = false) (hnb : ¬w.busy) (hd : w.data = some x)
    (hbs : w.bstate = .idling) (hsort : sortedIdsB w.subs = true)
    (hlt : allLtB w.subs w.nextId = true) :
    (tryMutate (fuel + 1) f w).1 = .ok () ∧
      PassOut (f x) { w with data := some (f x) } (tryMutate (fuel + 1) f w).2 := by
  obtain ⟨bs, ni, nr, subs, sb, mb, data, toks, lg, stk⟩ := w
  simp only [] at hst hd hbs hsort hlt
  subst hst
  subst hd
  subst hbs
  constructor
  · show mutateResult _ = _
    unfold mutateResult
    rw [if_neg hnb]
  · show PassOut (f x) _ (step (fuel + 1) (.mutate f)
      (⟨.idling, ni, nr, subs, sb, mb, some x, toks, lg, false⟩ : World T))
    rw [mutate_shape fuel f _ rfl, if_neg hnb]
    exact notifyAll_pass fuel (f x)
      (⟨.idling, ni, nr, subs, sb, mb, some (f x), toks, lg, false⟩ : World T)
      rfl rfl hsort hlt

/-- A settled `try_set`: if the pass completed, a following `try_get`
returns exactly the written value. -/
theorem trySet_settled (m : Nat) (v : T) (w : World T) (hnb : ¬w.busy)
    (hbs : w.bstate = .idling) (hsort : sortedIdsB w.subs = true)
    (hlt : allLtB w.subs w.nextId = true)
    (hres : (step m (.set v) w).stuck = false) :
    tryGet (step m (.set v) w) = .ok v := by
  have hst : w.stuck = false := by
    by_contra hc
    have hc2 : w.stuck = true := by revert hc; cases w.stuck <;> simp
    rw [step_stuck _ _ _ hc2] at hres
    rw [hres] at hc2
    simp at hc2
  cases m with
  | zero =>
    rw [show step 0 (Job.set v) w = { w with stuck := true } by simp [step, hst]] at hres
    simp at hres
  | succ n =>
    have P := (trySet_pass n v w hst hnb hbs hsort hlt).2
    have hP : PassOut v { w with data := some v } (step (n + 1) (.set v) w) := P
    have hd : (step (n + 1) (.set v) w).data = some v := hP.dataE
    have hmb : (step (n + 1) (.set v) w).mutBorrow = false := by
      rw [hP.mutB]
      show w.mutBorrow = false
      exact mutBorrow_false_of_not_busy hnb
    unfold tryGet
    rw [hmb, hd]
    simp

end Wasmadeus

namespace Wasmadeus

variable {T : Type}

theorem exists_invoke_of_mem_invokeIds {k : Nat} : ∀ {E : List (Event T)},
    k ∈ invokeIds E → ∃ u, Event.invoke k u ∈ E := by
  intro E
  induction E with
  | nil => intro h; simp [invokeIds] at h
  | cons e rest ih =>
    intro h
    cases e with
    | invoke j u =>
      rw [show invokeIds (Event.invoke j u :: rest) = j :: invokeIds rest by
        simp [invokeIds]] at h
      rcases List.mem_cons.mp h with h2 | h2
      · exact ⟨u, by rw [h2]; exact List.mem_cons_self _ _⟩
      · obtain ⟨u2, hu2⟩ := ih h2
        exact ⟨u2, List.mem_cons_of_mem _ hu2⟩
    | setOk =>
      obtain ⟨u2, hu2⟩ := ih (by simpa [invokeIds] using h)
      exact ⟨u2, List.mem_cons_of_mem _ hu2⟩
    | setErr =>
      obtain ⟨u2, hu2⟩ := ih (by simpa [invokeIds] using h)
      exact ⟨u2, List.mem_cons_of_mem _ hu2⟩
    | mutOk =>
      obtain ⟨u2, hu2⟩ := ih (by simpa [invokeIds] using h)
      exact ⟨u2, List.mem_cons_of_mem _ hu2⟩
    | mutErr =>
      obtain ⟨u2, hu2⟩ := ih (by simpa [invokeIds] using h)
      exact ⟨u2, List.mem_cons_of_mem _ hu2⟩

/-- C1: for every signal, a `try_set` or `try_mutate` whose underlying cell
operation fails returns the error with the world (stored value, registry,
log) completely unchanged — so no subscriber callback is invoked by that
call — and the error is reported exactly when the cell operation fails
(borrowed cell for both, plus uninitialized cell for `try_mutate`); when
the write succeeds the notification pass runs: the value is stored, every
invoke of the pass carries the new value, and every subscriber still active
at the end of the pass was invoked. -/
theorem c1_notify_iff_write (fuel : Nat) (v : T) (f : T → T) (w : World T)
    (hst : w.stuck = false) (hbs : w.bstate = .idling)
    (hsort : sortedIdsB w.subs = true) (hlt : allLtB w.subs w.nextId = true) :
    ((trySet (fuel + 1) v w).1 = .error .mk ↔ w.busy) ∧
    (w.busy → (trySet (fuel + 1) v w).2 = w) ∧
    ((tryMutate (fuel + 1) f w).1 = .error .mk ↔ (w.busy ∨ w.data = none)) ∧
    ((w.busy ∨ w.data = none) → (tryMutate (fuel + 1) f w).2 = w) ∧
    (¬w.busy → PassOut v { w with data := some v } (trySet (fuel + 1) v w).2) ∧
    (∀ x : T, ¬w.busy → w.data = some x →
      PassOut (f x) { w with data := some (f x) } (tryMutate (fuel + 1) f w).2) := by
  refine ⟨?_, ?_, ?_, ?_, ?_, ?_⟩
  · show setResult w = .error .mk ↔ w.busy
    unfold setResult
    by_cases hb : w.busy
    · simp [hb]
    · simp [hb]
  · intro hb
    show step (fuel + 1) (.set v) w = w
    rw [set_shape fuel v w hst, if_pos hb]
  · show mutateResult w = .error .mk ↔ (w.busy ∨ w.data = none)
    unfold mutateResult
    by_cases hb : w.busy
    · simp [hb]
    · cases hd : w.data <;> simp [hb, hd]
  · intro h
    show step (fuel + 1) (.mutate f) w = w
    rw [mutate_shape fuel f w hst]
    by_cases hb : w.busy
    · rw [if_pos hb]
    · rw [if_neg hb]
      rcases h with hb2 | hd
      · exact absurd hb2 hb
      · rw [hd]
  · intro hnb
    exact (trySet_pass fuel v w hst hnb hbs hsort hlt).2
  · intro x hnb hd
    exact (tryMutate_pass fuel f x w hst hnb hd hbs hsort hlt).2

theorem c1_notify_iff_write_witness :
    ((⟨.idling, 1, false, [⟨0, true, []⟩], 0, false, some 3, [], [], false⟩ :
        World Nat).stuck = false ∧
      (⟨.idling, 1, false, [⟨0, true, []⟩], 0, false, some 3, [], [],
        false⟩ : World Nat).bstate = .idling ∧
      sortedIdsB (⟨.idling, 1, false, [⟨0, true, []⟩], 0, false, some 3, [], [],
        false⟩ : World Nat).subs = true ∧
      allLtB (⟨.idling, 1, false, [⟨0, true, []⟩], 0, false, some 3, [], [],
        false⟩ : World Nat).subs 1 = true) ∧
    ((trySet 6 5 (⟨.idling, 1, false, [⟨0, true, []⟩], 0, false, some 3, [], [],
        false⟩ : World Nat)).1 = .error .mk ↔
      (⟨.idling, 1, false, [⟨0, true, []⟩], 0, false, some 3, [], [],
        false⟩ : World Nat).busy) :=
  ⟨⟨rfl, rfl, by decide, by decide⟩,
    (c1_notify_iff_write 5 5 (fun x => x + 1) _ rfl rfl (by decide) (by decide)).1⟩

/-- C2: a `try_mutate` (or `try_set`) issued from inside a subscriber
callback that the same signal's notification pass is invoking finds the
data cell borrowed (`notify_all` holds a shared borrow for the whole pass),
so it returns `SignalUpdatingError` without blocking or panicking, applies
nothing (the world is unchanged), and the callback sees the recorded
`mutErr` result. -/
theorem c2_reentrant_mutate (fuel : Nat) (v : T) (f : T → T) (w : World T)
    (hst : w.stuck = false) (hb : w.busy) :
    mutateResult w = .error .mk ∧
    step (fuel + 1) (.mutate f) w = w ∧
    step (fuel + 2) (.act v (.tryMutate f)) w =
      { w with log := w.log ++ [Event.mutErr] } := by
  have h1 : mutateResult w = .error .mk := by
    unfold mutateResult
    rw [if_pos hb]
  have h2 : step (fuel + 1) (.mutate f) w = w := by
    rw [mutate_shape fuel f w hst, if_pos hb]
  refine ⟨h1, h2, ?_⟩
  rw [act_shape_mutate (fuel + 1) v f w hst]
  show (if (step (fuel + 1) (.mutate f) w).stuck
        then step (fuel + 1) (.mutate f) w
        else { step (fuel + 1) (.mutate f) w with
                 log := (step (fuel + 1) (.mutate f) w).log ++
                   [mutEvent (mutateResult w)] }) = _
  rw [h2, if_neg (by rw [hst]; simp), h1]
  rfl

theorem c2_reentrant_mutate_witness :
    ((⟨.notifying, 1, false, [], 1, false, some 4, [], [], false⟩ :
        World Nat).stuck = false ∧
      (⟨.notifying, 1, false, [], 1, false, some 4, [], [],
        false⟩ : World Nat).busy) ∧
    mutateResult (⟨.notifying, 1, false, [], 1, false, some 4, [], [],
        false⟩ : World Nat) = .error .mk :=
  ⟨⟨rfl, by decide⟩,
    (c2_reentrant_mutate 5 0 (fun x => x + 1) _ rfl (by decide)).1⟩

/-- C3: a subscriber registered while a notification pass of the same
signal is in progress (its id is at least the `next_id` at the start of the
write) that is still active when the pass settles was invoked exactly once
over the whole run, and every value it was ever invoked with is the value
of that very pass — it received nothing delivered before its
registration. -/
theorem c3_subscribe_during_notify (fuel : Nat) (v : T) (w : World T)
    (hst : w.stuck = false) (hnb : ¬w.busy) (hbs : w.bstate = .idling)
    (hsort : sortedIdsB w.subs = true) (hlt : allLtB w.subs w.nextId = true)
    (hOld : ∀ (k : Nat) (u : T), Event.invoke k u ∈ w.log → k < w.nextId) :
    (trySet (fuel + 1) v w).2.stuck = false →
    ∀ s2 ∈ (trySet (fuel + 1) v w).2.subs, w.nextId ≤ s2.id → s2.active = true →
      countInvoke s2.id (trySet (fuel + 1) v w).2.log = 1 ∧
      (∀ u : T, Event.invoke s2.id u ∈ (trySet (fuel + 1) v w).2.log → u = v) := by
  intro hns s2 hmem hge hact
  have P := (trySet_pass fuel v w hst hnb hbs hsort hlt).2
  obtain ⟨E, hE, hvals, hchain, hprov, hcomp⟩ := P.logPack
  have hmemE : s2.id ∈ invokeIds E := hcomp hns s2 hmem hact
  have hcount0 : (invokeIds w.log).count s2.id = 0 := by
    rw [List.count_eq_zero]
    intro hc
    obtain ⟨u, hu⟩ := exists_invoke_of_mem_invokeIds hc
    exact absurd (hOld s2.id u hu) (by omega)
  constructor
  · rw [countInvoke_eq_count]
    have hE2 : (trySet (fuel + 1) v w).2.log = w.log ++ E := hE
    rw [hE2, invokeIds_append, List.count_append, hcount0]
    have hle : (invokeIds E).count s2.id ≤ 1 := count_le_one_of_chain hchain s2.id
    have hge1 : (invokeIds E).count s2.id ≠ 0 := by
      intro h0
      rw [List.count_eq_zero] at h0
      exact h0 hmemE
    omega
  · intro u hu
    have hE2 : (trySet (fuel + 1) v w).2.log = w.log ++ E := hE
    rw [hE2] at hu
    rcases List.mem_append.mp hu with h | h
    · exact absurd (hOld s2.id u h) (by omega)
    · exact hvals s2.id u h

theorem c3_subscribe_during_notify_witness :
    ((⟨.idling, 1, false, [⟨0, true, [.forEach []]⟩], 0, false, some 3,
        [some 0], [], false⟩ : World Nat).stuck = false ∧
      ¬(⟨.idling, 1, false, [⟨0, true, [.forEach []]⟩], 0, false, some 3,
        [some 0], [], false⟩ : World Nat).busy ∧
      sortedIdsB (⟨.idling, 1, false, [⟨0, true, [.forEach []]⟩], 0, false, some 3,
        [some 0], [], false⟩ : World Nat).subs = true) ∧
    ((trySet 9 7 (⟨.idling, 1, false, [⟨0, true, [.forEach []]⟩], 0, false, some 3,
        [some 0], [], false⟩ : World Nat)).2.stuck = false →
      ∀ s2 ∈ (trySet 9 7 (⟨.idling, 1, false, [⟨0, true, [.forEach []]⟩], 0, false,
          some 3, [some 0], [], false⟩ : World Nat)).2.subs,
        1 ≤ s2.id → s2.active = true →
        countInvoke s2.id (trySet 9 7 (⟨.idling, 1, false, [⟨0, true, [.forEach []]⟩],
          0, false, some 3, [some 0], [], false⟩ : World Nat)).2.log = 1 ∧
        (∀ u : Nat, Event.invoke s2.id u ∈ (trySet 9 7 (⟨.idling, 1, false,
          [⟨0, true, [.forEach []]⟩], 0, false, some 3, [some 0], [],
          false⟩ : World Nat)).2.log → u = 7)) :=
  ⟨⟨rfl, by decide, by decide⟩,
    c3_subscribe_during_notify 8 7 _ rfl (by decide) rfl (by decide) (by decide)
      (fun k u h => absurd h (by simp))⟩

/-- C6: after a settled successful `try_set(v)`, `try_get` returns exactly
`v`; in general `try_get` succeeds exactly when no exclusive borrow is in
flight (no write in progress) and the cell is initialized, returning a
clone of the stored value without modifying anything. -/
theorem c6_get_after_set (fuel : Nat) (v : T) (w : World T)
    (hst : w.stuck = false) (hnb : ¬w.busy) (hbs : w.bstate = .idling)
    (hsort : sortedIdsB w.subs = true) (hlt : allLtB w.subs w.nextId = true) :
    ((trySet (fuel + 1) v w).2.stuck = false →
      tryGet (trySet (fuel + 1) v w).2 = .ok v) ∧
    (∀ w3 : World T, (∃ x, tryGet w3 = .ok x) ↔
      (w3.mutBorrow = false ∧ w3.data ≠ none)) ∧
    (∀ (w3 : World T) (x : T), tryGet w3 = .ok x → w3.data = some x) := by
  refine ⟨?_, ?_, ?_⟩
  · intro hns
    exact trySet_settled (fuel + 1) v w hnb hbs hsort hlt hns
  · intro w3
    constructor
    · rintro ⟨x, hx⟩
      cases hmb : w3.mutBorrow <;> cases hd : w3.data <;>
        simp [tryGet, hmb, hd] at hx ⊢
    · rintro ⟨hmb, hd⟩
      cases hd2 : w3.data with
      | none => exact absurd hd2 hd
      | some x => exact ⟨x, by simp [tryGet, hmb, hd2]⟩
  · intro w3 x hx
    cases hmb : w3.mutBorrow <;> cases hd : w3.data <;>
      simp [tryGet, hmb, hd] at hx <;> rw [hx]

theorem c6_get_after_set_witness :
    ((⟨.idling, 1, false, [⟨0, true, []⟩], 0, false, some 3, [], [], false⟩ :
        World Nat).stuck = false ∧
      ¬(⟨.idling, 1, false, [⟨0, true, []⟩], 0, false, some 3, [], [],
        false⟩ : World Nat).busy) ∧
    ((trySet 4 9 (⟨.idling, 1, false, [⟨0, true, []⟩], 0, false, some 3, [], [],
        false⟩ : World Nat)).2.stuck = false →
      tryGet (trySet 4 9 (⟨.idling, 1, false, [⟨0, true, []⟩], 0, false, some 3, [], [],
        false⟩ : World Nat)).2 = .ok 9) :=
  ⟨⟨rfl, by decide⟩,
    (c6_get_after_set 3 9 _ rfl (by decide) rfl (by decide) (by decide)).1⟩

end Wasmadeus

namespace Wasmadeus

variable {T : Type}

/-- C4: `for_each` on an initialized signal whose cell is not exclusively
borrowed and whose broadcast is idling invokes the new callback
synchronously with the current value — the `invoke` event for the fresh id
is appended before anything the callback itself causes — exactly once over
the whole call, and the returned token slot holds the fresh subscriber's id
(unless the callback itself already consumed the token). -/
theorem c4_immediate_delivery (fuel : Nat) (prog : List (Act T)) (x : T)
    (w : World T) (hst : w.stuck = false) (hmb : w.mutBorrow = false)
    (hbs : w.bstate = .idling) (hdata : w.data = some x)
    (hOld : ∀ (k : Nat) (u : T), Event.invoke k u ∈ w.log → k < w.nextId) :
    (forEachOp fuel prog w).1 = w.tokens.length ∧
    ((forEachOp fuel prog w).2.stuck = false →
      ∃ E, (forEachOp fuel prog w).2.log =
          (w.log ++ [Event.invoke w.nextId x]) ++ E ∧
        (∀ (k : Nat) (u : T), Event.invoke k u ∈ E → w.nextId < k) ∧
        countInvoke w.nextId (forEachOp fuel prog w).2.log = 1 ∧
        ((forEachOp fuel prog w).2.tokens[w.tokens.length]? = some (some w.nextId) ∨
          (forEachOp fuel prog w).2.tokens[w.tokens.length]? = some none)) := by
  obtain ⟨bs, ni, nr, subs, sb, mb, data, toks, lg, stk⟩ := w
  simp only [] at hst hmb hbs hdata hOld
  subst hst
  subst hmb
  subst hbs
  subst hdata
  refine ⟨rfl, ?_⟩
  match fuel with
  | 0 =>
    intro hns
    have h0 : (forEachOp 0 prog
        (⟨.idling, ni, nr, subs, sb, false, some x, toks, lg, false⟩ : World T)).2.stuck
        = true := rfl
    rw [h0] at hns
    simp at hns
  | 1 =>
    intro hns
    have h0 : (forEachOp 1 prog
        (⟨.idling, ni, nr, subs, sb, false, some x, toks, lg, false⟩ : World T)).2.stuck
        = true := rfl
    rw [h0] at hns
    simp at hns
  | m + 2 =>
    by_cases hq : (step m (.prog x prog)
        (⟨.subscribing, ni + 1, nr, subs ++ [⟨ni, true, prog⟩], sb + 1, false,
          some x, toks ++ [some ni], lg ++ [Event.invoke ni x],
          false⟩ : World T)).stuck = true
    · have hfin : (forEachOp (m + 2) prog (⟨.idling, ni, nr, subs, sb, false, some x, toks, lg, false⟩ : World T)).2 = step m (.prog x prog)
        (⟨.subscribing, ni + 1, nr, subs ++ [⟨ni, true, prog⟩], sb + 1, false,
          some x, toks ++ [some ni], lg ++ [Event.invoke ni x],
          false⟩ : World T) := by
        show step (m + 2) (.forE prog) (⟨.idling, ni, nr, subs, sb, false, some x, toks ++ [some ni], lg,
          false⟩ : World T) = _
        show (if (if (step m (.prog x prog)
        (⟨.subscribing, ni + 1, nr, subs ++ [⟨ni, true, prog⟩], sb + 1, false,
          some x, toks ++ [some ni], lg ++ [Event.invoke ni x],
          false⟩ : World T)).stuck = true
            then step m (.prog x prog)
        (⟨.subscribing, ni + 1, nr, subs ++ [⟨ni, true, prog⟩], sb + 1, false,
          some x, toks ++ [some ni], lg ++ [Event.invoke ni x],
          false⟩ : World T)
            else { step m (.prog x prog)
        (⟨.subscribing, ni + 1, nr, subs ++ [⟨ni, true, prog⟩], sb + 1, false,
          some x, toks ++ [some ni], lg ++ [Event.invoke ni x],
          false⟩ : World T) with bstate := BState.idling }).stuck = true
              then (if (step m (.prog x prog)
        (⟨.subscribing, ni + 1, nr, subs ++ [⟨ni, true, prog⟩], sb + 1, false,
          some x, toks ++ [some ni], lg ++ [Event.invoke ni x],
          false⟩ : World T)).stuck = true
            then step m (.prog x prog)
        (⟨.subscribing, ni + 1, nr, subs ++ [⟨ni, true, prog⟩], sb + 1, false,
          some x, toks ++ [some ni], lg ++ [Event.invoke ni x],
          false⟩ : World T)
            else { step m (.prog x prog)
        (⟨.subscribing, ni + 1, nr, subs ++ [⟨ni, true, prog⟩], sb + 1, false,
          some x, toks ++ [some ni], lg ++ [Event.invoke ni x],
          false⟩ : World T) with bstate := BState.idling })
              else { (if (step m (.prog x prog)
        (⟨.subscribing, ni + 1, nr, subs ++ [⟨ni, true, prog⟩], sb + 1, false,
          some x, toks ++ [some ni], lg ++ [Event.invoke ni x],
          false⟩ : World T)).stuck = true
            then step m (.prog x prog)
        (⟨.subscribing, ni + 1, nr, subs ++ [⟨ni, true, prog⟩], sb + 1, false,
          some x, toks ++ [some ni], lg ++ [Event.invoke ni x],
          false⟩ : World T)
            else { step m (.prog x prog)
        (⟨.subscribing, ni + 1, nr, subs ++ [⟨ni, true, prog⟩], sb + 1, false,
          some x, toks ++ [some ni], lg ++ [Event.invoke ni x],
          false⟩ : World T) with bstate := BState.idling }) with
                sharedBorrows := (if (step m (.prog x prog)
        (⟨.subscribing, ni + 1, nr, subs ++ [⟨ni, true, prog⟩], sb + 1, false,
          some x, toks ++ [some ni], lg ++ [Event.invoke ni x],
          false⟩ : World T)).stuck = true
            then step m (.prog x prog)
        (⟨.subscribing, ni + 1, nr, subs ++ [⟨ni, true, prog⟩], sb + 1, false,
          some x, toks ++ [some ni], lg ++ [Event.invoke ni x],
          false⟩ : World T)
            else { step m (.prog x prog)
        (⟨.subscribing, ni + 1, nr, subs ++ [⟨ni, true, prog⟩], sb + 1, false,
          some x, toks ++ [some ni], lg ++ [Event.invoke ni x],
          false⟩ : World T) with bstate := BState.idling }).sharedBorrows - 1 }) = _
        rw [if_pos hq, if_pos hq]
      intro hns
      rw [hfin] at hns
      rw [hns] at hq
      simp at hq
    · have hqf : (step m (.prog x prog)
        (⟨.subscribing, ni + 1, nr, subs ++ [⟨ni, true, prog⟩], sb + 1, false,
          some x, toks ++ [some ni], lg ++ [Event.invoke ni x],
          false⟩ : World T)).stuck = false := by
        revert hq
        cases (step m (.prog x prog)
        (⟨.subscribing, ni + 1, nr, subs ++ [⟨ni, true, prog⟩], sb + 1, false,
          some x, toks ++ [some ni], lg ++ [Event.invoke ni x],
          false⟩ : World T)).stuck <;> simp
      have hfin : (forEachOp (m + 2) prog (⟨.idling, ni, nr, subs, sb, false, some x, toks, lg, false⟩ : World T)).2 =
          { (step m (.prog x prog)
              (⟨.subscribing, ni + 1, nr, subs ++ [⟨ni, true, prog⟩], sb + 1, false,
                some x, toks ++ [some ni], lg ++ [Event.invoke ni x],
                false⟩ : World T)) with
            bstate := BState.idling
            sharedBorrows := (step m (.prog x prog)
              (⟨.subscribing, ni + 1, nr, subs ++ [⟨ni, true, prog⟩], sb + 1, false,
                some x, toks ++ [some ni], lg ++ [Event.invoke ni x],
                false⟩ : World T)).sharedBorrows - 1 } := by
        show step (m + 2) (.forE prog) (⟨.idling, ni, nr, subs, sb, false, some x, toks ++ [some ni], lg,
          false⟩ : World T) = _
        show (if (if (step m (.prog x prog)
        (⟨.subscribing, ni + 1, nr, subs ++ [⟨ni, true, prog⟩], sb + 1, false,
          some x, toks ++ [some ni], lg ++ [Event.invoke ni x],
          false⟩ : World T)).stuck = true
            then step m (.prog x prog)
        (⟨.subscribing, ni + 1, nr, subs ++ [⟨ni, true, prog⟩], sb + 1, false,
          some x, toks ++ [some ni], lg ++ [Event.invoke ni x],
          false⟩ : World T)
            else { step m (.prog x prog)
        (⟨.subscribing, ni + 1, nr, subs ++ [⟨ni, true, prog⟩], sb + 1, false,
          some x, toks ++ [some ni], lg ++ [Event.invoke ni x],
          false⟩ : World T) with bstate := BState.idling }).stuck = true
              then (if (step m (.prog x prog)
        (⟨.subscribing, ni + 1, nr, subs ++ [⟨ni, true, prog⟩], sb + 1, false,
          some x, toks ++ [some ni], lg ++ [Event.invoke ni x],
          false⟩ : World T)).stuck = true
            then step m (.prog x prog)
        (⟨.subscribing, ni + 1, nr, subs ++ [⟨ni, true, prog⟩], sb + 1, false,
          some x, toks ++ [some ni], lg ++ [Event.invoke ni x],
          false⟩ : World T)
            else { step m (.prog x prog)
        (⟨.subscribing, ni + 1, nr, subs ++ [⟨ni, true, prog⟩], sb + 1, false,
          some x, toks ++ [some ni], lg ++ [Event.invoke ni x],
          false⟩ : World T) with bstate := BState.idling })
              else { (if (step m (.prog x prog)
        (⟨.subscribing, ni + 1, nr, subs ++ [⟨ni, true, prog⟩], sb + 1, false,
          some x, toks ++ [some ni], lg ++ [Event.invoke ni x],
          false⟩ : World T)).stuck = true
            then step m (.prog x prog)
        (⟨.subscribing, ni + 1, nr, subs ++ [⟨ni, true, prog⟩], sb + 1, false,
          some x, toks ++ [some ni], lg ++ [Event.invoke ni x],
          false⟩ : World T)
            else { step m (.prog x prog)
        (⟨.subscribing, ni + 1, nr, subs ++ [⟨ni, true, prog⟩], sb + 1, false,
          some x, toks ++ [some ni], lg ++ [Event.invoke ni x],
          false⟩ : World T) with bstate := BState.idling }) with
                sharedBorrows := (if (step m (.prog x prog)
        (⟨.subscribing, ni + 1, nr, subs ++ [⟨ni, true, prog⟩], sb + 1, false,
          some x, toks ++ [some ni], lg ++ [Event.invoke ni x],
          false⟩ : World T)).stuck = true
            then step m (.prog x prog)
        (⟨.subscribing, ni + 1, nr, subs ++ [⟨ni, true, prog⟩], sb + 1, false,
          some x, toks ++ [some ni], lg ++ [Event.invoke ni x],
          false⟩ : World T)
            else { step m (.prog x prog)
        (⟨.subscribing, ni + 1, nr, subs ++ [⟨ni, true, prog⟩], sb + 1, false,
          some x, toks ++ [some ni], lg ++ [Event.invoke ni x],
          false⟩ : World T) with bstate := BState.idling }).sharedBorrows - 1 }) = _
        simp only [hqf]
        simp
      rw [hfin]
      intro _
      have C := ((cbCore_step m).1 x prog
        (⟨.subscribing, ni + 1, nr, subs ++ [⟨ni, true, prog⟩], sb + 1, false,
          some x, toks ++ [some ni], lg ++ [Event.invoke ni x],
          false⟩ : World T) (Or.inr (Nat.succ_pos _)) (by simp)).1
      obtain ⟨E, hE, hinv⟩ := C.logPre
      refine ⟨E, hE, ?_, ?_, ?_⟩
      · intro k u hk
        have h2 : ni + 1 ≤ k := (hinv k u hk).1
        show ni < k
        omega
      · have hlog : (step m (.prog x prog)
        (⟨.subscribing, ni + 1, nr, subs ++ [⟨ni, true, prog⟩], sb + 1, false,
          some x, toks ++ [some ni], lg ++ [Event.invoke ni x],
          false⟩ : World T)).log = (lg ++ [Event.invoke ni x]) ++ E := hE
        show countInvoke ni (step m (.prog x prog)
        (⟨.subscribing, ni + 1, nr, subs ++ [⟨ni, true, prog⟩], sb + 1, false,
          some x, toks ++ [some ni], lg ++ [Event.invoke ni x],
          false⟩ : World T)).log = 1
        rw [hlog, countInvoke_eq_count, invokeIds_append, invokeIds_append,
          List.count_append, List.count_append]
        have h1 : (invokeIds lg).count ni = 0 := by
          rw [List.count_eq_zero]
          intro hc
          obtain ⟨u, hu⟩ := exists_invoke_of_mem_invokeIds hc
          exact absurd (hOld ni u hu) (by omega)
        have h2 : (invokeIds ([Event.invoke ni x] : List (Event T))).count ni = 1 := by
          simp [invokeIds]
        have h3 : (invokeIds E).count ni = 0 := by
          rw [List.count_eq_zero]
          intro hc
          obtain ⟨u, hu⟩ := exists_invoke_of_mem_invokeIds hc
          have h4 : ni + 1 ≤ ni := (hinv ni u hu).1
          omega
        rw [h1, h2, h3]
      · have htk : toks.length < (⟨.subscribing, ni + 1, nr,
            subs ++ [⟨ni, true, prog⟩], sb + 1, false, some x, toks ++ [some ni],
            lg ++ [Event.invoke ni x], false⟩ : World T).tokens.length := by
          show toks.length < (toks ++ [some ni]).length
          simp
        rcases C.tokPre toks.length htk with h | h
        · left
          show (step m (.prog x prog)
        (⟨.subscribing, ni + 1, nr, subs ++ [⟨ni, true, prog⟩], sb + 1, false,
          some x, toks ++ [some ni], lg ++ [Event.invoke ni x],
          false⟩ : World T)).tokens[toks.length]? = some (some ni)
          rw [h]
          show (toks ++ [some ni])[toks.length]? = some (some ni)
          exact List.getElem?_concat_length toks (some ni)
        · right
          exact h

theorem c4_immediate_delivery_witness :
    ((⟨.idling, 1, false, [], 0, false, some 4, [], [], false⟩ :
        World Nat).stuck = false ∧
      (⟨.idling, 1, false, [], 0, false, some 4, [], [],
        false⟩ : World Nat).mutBorrow = false ∧
      (⟨.idling, 1, false, [], 0, false, some 4, [], [],
        false⟩ : World Nat).data = some 4) ∧
    (forEachOp 6 ([] : List (Act Nat)) (⟨.idling, 1, false, [], 0, false, some 4,
      [], [], false⟩ : World Nat)).1 = 0 :=
  ⟨⟨rfl, rfl, rfl⟩,
    (c4_immediate_delivery 6 [] 4 _ rfl rfl rfl rfl
      (fun k u h => absurd h (by simp))).1⟩

/-- C5: unsubscription is idempotent and safe at any time: a second
`unsubscribe` on the same token is a no-op; after the signal's inner
object is gone the weak upgrade fails and the call is a silent no-op; a
token-driven unsubscription always leaves the registry sorted and never
touches the stored value or the stuck flag; and in a concrete two-pass run
a subscriber that cancels its own subscription from inside its own callback
causes no panic, the other subscriber of the same pass is still delivered,
and the cancelled callback is never invoked again in the next pass. -/
theorem c5_unsubscribe_safe :
    (∀ (S : Type) (u : UnsubToken) (sig : Option (World S)),
      unsubRun (unsubRun u sig).1 (unsubRun u sig).2 = unsubRun u sig) ∧
    (∀ (S : Type) (id : Nat),
      unsubRun ⟨some id⟩ (none : Option (World S)) = (⟨none⟩, none)) ∧
    (∀ (S : Type) (slot : Nat) (w : World S), sortedIdsB w.subs = true →
      sortedIdsB (tokenUnsub slot w).subs = true ∧
      (tokenUnsub slot w).stuck = w.stuck ∧
      (tokenUnsub slot w).data = w.data) ∧
    ((trySet 20 9 (trySet 20 7
        (⟨.idling, 2, false, [⟨0, true, [.unsubscribe 0]⟩, ⟨1, true, []⟩], 0, false,
          some 5, [some 0, some 1], [], false⟩ : World Nat)).2).2.stuck = false ∧
      (trySet 20 9 (trySet 20 7
        (⟨.idling, 2, false, [⟨0, true, [.unsubscribe 0]⟩, ⟨1, true, []⟩], 0, false,
          some 5, [some 0, some 1], [], false⟩ : World Nat)).2).2.log =
        [.invoke 0 7, .invoke 1 7, .invoke 1 9] ∧
      sortedIdsB (trySet 20 9 (trySet 20 7
        (⟨.idling, 2, false, [⟨0, true, [.unsubscribe 0]⟩, ⟨1, true, []⟩], 0, false,
          some 5, [some 0, some 1], [], false⟩ : World Nat)).2).2.subs = true ∧
      hasActiveId 0 (trySet 20 9 (trySet 20 7
        (⟨.idling, 2, false, [⟨0, true, [.unsubscribe 0]⟩, ⟨1, true, []⟩], 0, false,
          some 5, [some 0, some 1], [], false⟩ : World Nat)).2).2.subs = false ∧
      hasActiveId 1 (trySet 20 9 (trySet 20 7
        (⟨.idling, 2, false, [⟨0, true, [.unsubscribe 0]⟩, ⟨1, true, []⟩], 0, false,
          some 5, [some 0, some 1], [], false⟩ : World Nat)).2).2.subs = true ∧
      (trySet 20 9 (trySet 20 7
        (⟨.idling, 2, false, [⟨0, true, [.unsubscribe 0]⟩, ⟨1, true, []⟩], 0, false,
          some 5, [some 0, some 1], [], false⟩ : World Nat)).2).2.tokens =
        [none, some 1]) := by
  refine ⟨?_, ?_, ?_, ?_⟩
  · intro S u sig
    obtain ⟨inner⟩ := u
    cases inner <;> rfl
  · intro S id
    rfl
  · intro S slot w hsort
    obtain ⟨h1, h2, h3, h4, h5, h6, h7⟩ := tokenUnsub_frame slot w
    refine ⟨?_, h7, h2⟩
    unfold tokenUnsub
    split
    · rename_i id heq
      unfold rawUnsubscribe
      split
      · exact hsort
      · split
        · show sortedIdsB (w.subs.eraseIdx _) = true
          rw [sortedIdsB_iff_chain] at hsort ⊢
          rw [List.chain'_iff_pairwise] at hsort ⊢
          exact hsort.sublist ((List.eraseIdx_sublist _ _).map _)
        · show sortedIdsB (deactivateAt w.subs _) = true
          rw [sortedIdsB_deactivateAt]
          exact hsort
    · exact hsort
  · exact ⟨by decide, by decide, by decide, by decide, by decide, by decide⟩

/-- C8 counterexample: on a never-written cell `try_mutate` reports
`SignalUpdatingError`, the very same (only) value that the borrowed-cell
case reports — `SignalUpdatingError` is a unit struct, so no distinct
`Uninitialized` kind of update error exists. -/
theorem c8_uninit_same_error_counterexample :
    (tryMutate 5 (fun x => x + 1)
      (⟨.idling, 0, false, [], 0, false, none, [], [], false⟩ : World Nat)).1 =
      .error .mk ∧
    (tryMutate 5 (fun x => x + 1)
      (⟨.idling, 0, false, [], 1, false, some 3, [], [], false⟩ : World Nat)).1 =
      .error .mk ∧
    (∀ e1 e2 : SignalUpdatingError, e1 = e2) :=
  ⟨rfl, rfl, fun e1 e2 => by cases e1; cases e2; rfl⟩

/-- C8 (amended): `try_mutate` on a never-written, unborrowed cell fails
with `SignalUpdatingError` — the single error kind every update operation
returns, not a distinct `Uninitialized` kind — leaving the world unchanged;
only the read path distinguishes the two situations, `try_get` returning
`Uninit` for the empty cell and `Updating` for a cell under an exclusive
borrow. -/
theorem c8_uninit_mutate_fails (fuel : Nat) (f : T → T) (w : World T)
    (hst : w.stuck = false) (hnb : ¬w.busy) (hd : w.data = none) :
    (tryMutate (fuel + 1) f w).1 = .error .mk ∧
    (tryMutate (fuel + 1) f w).2 = w ∧
    tryGet w = .error .uninit ∧
    (∀ wb : World T, wb.mutBorrow = true → tryGet wb = .error .updating) := by
  refine ⟨?_, ?_, ?_, ?_⟩
  · show mutateResult w = _
    unfold mutateResult
    rw [if_neg hnb, hd]
  · show step (fuel + 1) (.mutate f) w = w
    rw [mutate_shape fuel f w hst, if_neg hnb, hd]
  · unfold tryGet
    rw [mutBorrow_false_of_not_busy hnb, hd]
    simp
  · intro wb hmb
    unfold tryGet
    rw [hmb]
    simp

theorem c8_uninit_mutate_fails_witness :
    ((⟨.idling, 0, false, [], 0, false, none, [], [], false⟩ : World Nat).stuck
        = false ∧
      ¬(⟨.idling, 0, false, [], 0, false, none, [], [],
        false⟩ : World Nat).busy ∧
      (⟨.idling, 0, false, [], 0, false, none, [], [],
        false⟩ : World Nat).data = none) ∧
    tryGet (⟨.idling, 0, false, [], 0, false, none, [], [],
      false⟩ : World Nat) = .error .uninit :=
  ⟨⟨rfl, by decide, rfl⟩,
    (c8_uninit_mutate_fails 4 (fun x => x + 1) _ rfl (by decide) rfl).2.2.1⟩

/-- C9 counterexample: the derive surface of `impl Signal<T>` has no
`take` and no `take_while` — neither name is among the derive constructors
the module defines. -/
theorem c9_take_missing_counterexample :
    deriveOps.contains "take" = false ∧ deriveOps.contains "take_while" = false := by
  constructor
  · decide
  · decide

/-- C9 (amended): the public derive surface consists of exactly seven
constructors — `map`, `filter`, `filter_map`, `fold`, `map_while`, `skip`
and `skip_while`; `take` and `take_while` are not provided. -/
theorem c9_derive_surface :
    "map" ∈ deriveOps ∧ "filter" ∈ deriveOps ∧ "filter_map" ∈ deriveOps ∧
    "fold" ∈ deriveOps ∧ "map_while" ∈ deriveOps ∧ "skip" ∈ deriveOps ∧
    "skip_while" ∈ deriveOps ∧ deriveOps.contains "take" = false ∧
    deriveOps.contains "take_while" = false ∧
    deriveOps.length = 7 := by
  refine ⟨?_, ?_, ?_, ?_, ?_, ?_, ?_, ?_, ?_, rfl⟩ <;> simp [deriveOps]

end Wasmadeus

namespace Wasmadeus

variable {T U : Type}

/-! ### Facts about the two-signal `compose` model -/

theorem mem_of_getElem?_some {α : Type} {l : List α} {j : Nat} {a : α}
    (h : l[j]? = some a) : a ∈ l := by
  have hl : j < l.length := by
    by_contra hc
    rw [List.getElem?_eq_none (by omega)] at h
    simp at h
  rw [List.getElem?_eq_getElem hl] at h
  injection h with h2
  rw [← h2]
  exact List.getElem_mem hl

theorem mRetain_frame (M : MapWorld T U) :
    (mRetain M).data = M.data ∧ (mRetain M).bstate = M.bstate ∧
    (mRetain M).sharedBorrows = M.sharedBorrows ∧
    (mRetain M).mutBorrow = M.mutBorrow ∧ (mRetain M).drv = M.drv ∧
    (mRetain M).relayTok = M.relayTok ∧ (mRetain M).panicked = M.panicked := by
  unfold mRetain
  split <;> simp

/-- A stretch of the walk that meets only inactive or non-relay entries
leaves the model unchanged. -/
theorem mapWalk_inert (f : T → U) (v : T) : ∀ (fuel i : Nat) (M : MapWorld T U),
    (∀ (j : Nat), i ≤ j → ∀ e, M.subs[j]? = some e →
      (e.active && e.isRelay) = false) →
    mapWalk fuel f v i M = M := by
  intro fuel
  induction fuel with
  | zero => intro i M h; rfl
  | succ n ih =>
    intro i M h
    simp only [mapWalk]
    cases hi : M.subs[i]? with
    | none => rfl
    | some e =>
      have hfl := h i (le_refl i) e hi
      show mapWalk n f v (i + 1)
          (if (e.active && e.isRelay) = true then relayInvoke n f v M else M) = M
      rw [if_neg (by rw [hfl]; simp)]
      exact ih (i + 1) M (fun j hj e2 he2 => h j (by omega) e2 he2)

/-- Skipping `k` inactive-or-non-relay entries of the walk. -/
theorem mapWalk_skip (f : T → U) (v : T) : ∀ (k fuel i : Nat) (M : MapWorld T U),
    (∀ (j : Nat), i ≤ j → j < i + k →
      ∃ e, M.subs[j]? = some e ∧ (e.active && e.isRelay) = false) →
    mapWalk (k + fuel) f v i M = mapWalk fuel f v (i + k) M := by
  intro k
  induction k with
  | zero =>
    intro fuel i M _
    rw [Nat.zero_add]
    rfl
  | succ n ih =>
    intro fuel i M h
    rw [show n + 1 + fuel = (n + fuel) + 1 by omega]
    simp only [mapWalk]
    obtain ⟨e, he, hfl⟩ := h i (le_refl i) (by omega)
    rw [he]
    show mapWalk (n + fuel) f v (i + 1)
        (if e.active && e.isRelay then relayInvoke (n + fuel) f v M else M) =
      mapWalk fuel f v (i + (n + 1)) M
    rw [if_neg (by rw [hfl]; simp)]
    have h2 := ih fuel (i + 1) M (fun j hj1 hj2 => h j (by omega) (by omega))
    rw [show i + 1 + n = i + (n + 1) by omega] at h2
    exact h2

theorem findIdx?_aux (p : MEntry → Bool) (e : MEntry) (B : List MEntry) :
    ∀ (A : List MEntry) (s : Nat), (∀ a ∈ A, p a = false) → p e = true →
    List.findIdx? p (A ++ e :: B) s = some (s + A.length) := by
  intro A
  induction A with
  | nil =>
    intro s _ hp
    show List.findIdx? p (e :: B) s = some (s + 0)
    rw [List.findIdx?_cons, if_pos hp]
    simp
  | cons a A2 ih =>
    intro s hA hp
    have ha : p a = false := hA a (List.mem_cons_self _ _)
    show List.findIdx? p (a :: (A2 ++ e :: B)) s = some (s + (A2.length + 1))
    rw [List.findIdx?_cons, if_neg (by rw [ha]; simp)]
    rw [ih (s + 1) (fun a2 ha2 => hA a2 (List.mem_cons_of_mem _ ha2)) hp]
    rw [show s + 1 + A2.length = s + (A2.length + 1) by omega]

/-- `List.findIdx?` on a registry whose prefix rejects the predicate and
whose middle entry satisfies it. -/
theorem findIdx?_append_middle (p : MEntry → Bool) (e : MEntry) (B : List MEntry)
    (A : List MEntry) (hA : ∀ a ∈ A, p a = false) (hp : p e = true) :
    (A ++ e :: B).findIdx? p = some A.length := by
  have h := findIdx?_aux p e B A 0 hA hp
  rw [Nat.zero_add] at h
  exact h

/-- Deactivating the middle entry of a split registry. -/
theorem mDeactivateAt_middle (e : MEntry) (B : List MEntry) :
    ∀ (A : List MEntry),
    mDeactivateAt (A ++ e :: B) A.length = A ++ { e with active := false } :: B := by
  intro A
  induction A with
  | nil => rfl
  | cons a A2 ih =>
    show a :: mDeactivateAt (A2 ++ e :: B) A2.length = _
    rw [ih]
    rfl

end Wasmadeus

namespace Wasmadeus

variable {T U : Type}

/-- C7: for a source signal carrying the relay subscription that
`d = s.map(f)` installed (other subscribers being unrelated callbacks),
a settled `s.set(v)` succeeds and hands the relay the new value; the relay
performs `derived.try_set(f(value)).unwrap()`, so — whenever the derived
signal's own pass completes — `d.get()` afterwards returns exactly
`f(v)`. -/
theorem c7_map_law (m : Nat) (f : T → U) (v : T) (M : MapWorld T U)
    (A B : List MEntry) (e : MEntry) (d : World U)
    (hsubs : M.subs = A ++ e :: B)
    (hA : ∀ a ∈ A, (a.active && a.isRelay) = false)
    (hB : ∀ b ∈ B, (b.active && b.isRelay) = false)
    (he : (e.active && e.isRelay) = true)
    (hmb : M.mutBorrow = false) (hsb : M.sharedBorrows = 0)
    (hbs : M.bstate = .idling) (hdrv : M.drv = some d)
    (hdnb : ¬d.busy) (hdbs : d.bstate = .idling)
    (hdsort : sortedIdsB d.subs = true) (hdlt : allLtB d.subs d.nextId = true) :
    (mapSet (A.length + (1 + (B.length + (1 + m)))) f v M).1 = .ok () ∧
    (mapSet (A.length + (1 + (B.length + (1 + m)))) f v M).2.drv = some (step (B.length + (1 + m)) (.set (f v)) d) ∧
    (mapSet (A.length + (1 + (B.length + (1 + m)))) f v M).2.panicked = M.panicked ∧
    ((step (B.length + (1 + m)) (.set (f v)) d).stuck = false → tryGet (step (B.length + (1 + m)) (.set (f v)) d) = .ok (f v)) := by
  obtain ⟨data0, bs, sb, mb, nr, subs0, drv0, rtok, pk⟩ := M
  simp only [] at hsubs hmb hsb hbs hdrv
  subst hsubs
  subst hmb
  subst hsb
  subst hbs
  subst hdrv
  have hsr : setResult d = Except.ok () := by
    unfold setResult
    rw [if_neg hdnb]
  have htS : trySet (B.length + (1 + m)) (f v) d =
      (Except.ok (), (step (B.length + (1 + m)) (.set (f v)) d)) := by
    unfold trySet
    rw [hsr]
  have hrelay : relayInvoke (B.length + (1 + m)) f v (⟨some v, .notifying, 1, false, nr, A ++ e :: B, some d, rtok, pk⟩ : MapWorld T U) =
      { (⟨some v, .notifying, 1, false, nr, A ++ e :: B, some d, rtok, pk⟩ : MapWorld T U) with drv := some (step (B.length + (1 + m)) (.set (f v)) d) } := by
    show (match trySet (B.length + (1 + m)) (f v) d with
          | (.ok _, d2) => { (⟨some v, .notifying, 1, false, nr, A ++ e :: B, some d, rtok, pk⟩ : MapWorld T U) with drv := some d2 }
          | (.error _, _) => { (⟨some v, .notifying, 1, false, nr, A ++ e :: B, some d, rtok, pk⟩ : MapWorld T U) with panicked := true }) =
      { (⟨some v, .notifying, 1, false, nr, A ++ e :: B, some d, rtok, pk⟩ : MapWorld T U) with drv := some (step (B.length + (1 + m)) (.set (f v)) d) }
    rw [htS]
  have hmid : (⟨some v, .notifying, 1, false, nr, A ++ e :: B, some d, rtok, pk⟩ : MapWorld T U).subs[A.length]? = some e := by
    show (A ++ e :: B)[A.length]? = some e
    rw [List.getElem?_append_right (le_refl A.length), Nat.sub_self]
    simp
  have hskipA : ∀ (j : Nat), 0 ≤ j → j < 0 + A.length →
      ∃ e2, (⟨some v, .notifying, 1, false, nr, A ++ e :: B, some d, rtok, pk⟩ : MapWorld T U).subs[j]? = some e2 ∧ (e2.active && e2.isRelay) = false := by
    intro j _ hj
    have hjA : j < A.length := by omega
    refine ⟨A[j], ?_, hA A[j] (List.getElem_mem hjA)⟩
    show (A ++ e :: B)[j]? = some A[j]
    rw [List.getElem?_append, if_pos hjA]
    exact List.getElem?_eq_getElem hjA
  have hinert : ∀ (j : Nat), A.length + 1 ≤ j → ∀ e2,
      ({ (⟨some v, .notifying, 1, false, nr, A ++ e :: B, some d, rtok, pk⟩ : MapWorld T U) with drv := some (step (B.length + (1 + m)) (.set (f v)) d) } : MapWorld T U).subs[j]? = some e2 →
      (e2.active && e2.isRelay) = false := by
    intro j hj e2 he2
    have he2b : (A ++ e :: B)[j]? = some e2 := he2
    rw [List.getElem?_append_right (by omega)] at he2b
    rw [show j - A.length = (j - A.length - 1) + 1 by omega] at he2b
    rw [List.getElem?_cons_succ] at he2b
    exact hB e2 (mem_of_getElem?_some he2b)
  have hwalk : mapWalk (A.length + (1 + (B.length + (1 + m)))) f v 0 (⟨some v, .notifying, 1, false, nr, A ++ e :: B, some d, rtok, pk⟩ : MapWorld T U) =
      { (⟨some v, .notifying, 1, false, nr, A ++ e :: B, some d, rtok, pk⟩ : MapWorld T U) with drv := some (step (B.length + (1 + m)) (.set (f v)) d) } := by
    rw [mapWalk_skip f v A.length (1 + (B.length + (1 + m))) 0 (⟨some v, .notifying, 1, false, nr, A ++ e :: B, some d, rtok, pk⟩ : MapWorld T U) hskipA]
    rw [Nat.zero_add]
    rw [show 1 + (B.length + (1 + m)) = (B.length + (1 + m)) + 1 by omega]
    simp only [mapWalk]
    rw [hmid]
    show mapWalk (B.length + (1 + m)) f v (A.length + 1)
        (if (e.active && e.isRelay) = true
         then relayInvoke (B.length + (1 + m)) f v (⟨some v, .notifying, 1, false, nr, A ++ e :: B, some d, rtok, pk⟩ : MapWorld T U) else (⟨some v, .notifying, 1, false, nr, A ++ e :: B, some d, rtok, pk⟩ : MapWorld T U)) = _
    rw [if_pos he, hrelay]
    exact mapWalk_inert f v (B.length + (1 + m)) (A.length + 1) _ hinert
  refine ⟨rfl, ?_, ?_,
    trySet_settled (B.length + (1 + m)) (f v) d hdnb hdbs hdsort hdlt⟩
  · show (mRetain (mapWalk (A.length + (1 + (B.length + (1 + m)))) f v 0 (⟨some v, .notifying, 1, false, nr, A ++ e :: B, some d, rtok, pk⟩ : MapWorld T U))).drv = some (step (B.length + (1 + m)) (.set (f v)) d)
    rw [hwalk, (mRetain_frame _).2.2.2.2.1]
  · show (mRetain (mapWalk (A.length + (1 + (B.length + (1 + m)))) f v 0 (⟨some v, .notifying, 1, false, nr, A ++ e :: B, some d, rtok, pk⟩ : MapWorld T U))).panicked = pk
    rw [hwalk, (mRetain_frame _).2.2.2.2.2.2]

end Wasmadeus

namespace Wasmadeus

variable {T U : Type}

/-- C10: the relay `compose` installs holds the derived signal only
weakly.  Dropping the last strong handle touches nothing by itself (lazy,
not eager); on the first source notification after the drop the upgrade
fails, so the relay consumes its own token and unsubscribes itself from
the source registry: after that pass the registry holds no entry with the
relay's id, the token is spent, and the derived world was never written to
or notified again. -/
theorem c10_lazy_detach (m : Nat) (f : T → U) (v : T) (M : MapWorld T U)
    (A B : List MEntry) (e : MEntry)
    (hsubs : M.subs = A ++ e :: B)
    (hA : ∀ a ∈ A, (a.active && a.isRelay) = false)
    (hB : ∀ b ∈ B, (b.active && b.isRelay) = false)
    (he : (e.active && e.isRelay) = true)
    (hAid : ∀ a ∈ A, (a.id == e.id) = false)
    (hBid : ∀ b ∈ B, (b.id == e.id) = false)
    (hmb : M.mutBorrow = false) (hsb : M.sharedBorrows = 0)
    (hbs : M.bstate = .idling) (htok : M.relayTok = some e.id) :
    (dropDerived M).subs = M.subs ∧
    (mapSet (A.length + (1 + (B.length + (1 + m)))) f v (dropDerived M)).1 = .ok () ∧
    (mapSet (A.length + (1 + (B.length + (1 + m)))) f v (dropDerived M)).2.drv = none ∧
    (mapSet (A.length + (1 + (B.length + (1 + m)))) f v (dropDerived M)).2.relayTok = none ∧
    (mapSet (A.length + (1 + (B.length + (1 + m)))) f v (dropDerived M)).2.panicked = M.panicked ∧
    (∀ e2 ∈ (mapSet (A.length + (1 + (B.length + (1 + m)))) f v (dropDerived M)).2.subs, e2.id ≠ e.id) := by
  obtain ⟨data0, bs, sb, mb, nr, subs0, drv0, rtok, pk⟩ := M
  simp only [] at hsubs hmb hsb hbs htok
  subst hsubs
  subst hmb
  subst hsb
  subst hbs
  subst htok
  have hrelay : relayInvoke (B.length + (1 + m)) f v (⟨some v, .notifying, 1, false, nr, A ++ e :: B, none, some e.id, pk⟩ : MapWorld T U) = (⟨some v, .notifying, 1, false, true, A ++ { e with active := false } :: B, none, none, pk⟩ : MapWorld T U) := by
    show mUnsubscribe e.id (⟨some v, .notifying, 1, false, nr, A ++ e :: B, none, none, pk⟩ : MapWorld T U) = (⟨some v, .notifying, 1, false, true, A ++ { e with active := false } :: B, none, none, pk⟩ : MapWorld T U)
    unfold mUnsubscribe
    rw [show (⟨some v, .notifying, 1, false, nr, A ++ e :: B, none, none, pk⟩ : MapWorld T U).subs.findIdx? (fun e2 => e2.id == e.id) = some A.length from
      findIdx?_append_middle (fun e2 => e2.id == e.id) e B A hAid (by simp)]
    show (⟨some v, .notifying, 1, false, true,
        mDeactivateAt (A ++ e :: B) A.length, none, none, pk⟩ : MapWorld T U) = (⟨some v, .notifying, 1, false, true, A ++ { e with active := false } :: B, none, none, pk⟩ : MapWorld T U)
    rw [mDeactivateAt_middle e B A]
  have hmid : (⟨some v, .notifying, 1, false, nr, A ++ e :: B, none, some e.id, pk⟩ : MapWorld T U).subs[A.length]? = some e := by
    show (A ++ e :: B)[A.length]? = some e
    rw [List.getElem?_append_right (le_refl A.length), Nat.sub_self]
    simp
  have hskipA : ∀ (j : Nat), 0 ≤ j → j < 0 + A.length →
      ∃ e2, (⟨some v, .notifying, 1, false, nr, A ++ e :: B, none, some e.id, pk⟩ : MapWorld T U).subs[j]? = some e2 ∧ (e2.active && e2.isRelay) = false := by
    intro j _ hj
    have hjA : j < A.length := by omega
    refine ⟨A[j], ?_, hA A[j] (List.getElem_mem hjA)⟩
    show (A ++ e :: B)[j]? = some A[j]
    rw [List.getElem?_append, if_pos hjA]
    exact List.getElem?_eq_getElem hjA
  have hinert : ∀ (j : Nat), A.length + 1 ≤ j → ∀ e2,
      ((⟨some v, .notifying, 1, false, true, A ++ { e with active := false } :: B, none, none, pk⟩ : MapWorld T U)).subs[j]? = some e2 → (e2.active && e2.isRelay) = false := by
    intro j hj e2 he2
    have he2b : (A ++ { e with active := false } :: B)[j]? = some e2 := he2
    rw [List.getElem?_append_right (by omega)] at he2b
    rw [show j - A.length = (j - A.length - 1) + 1 by omega] at he2b
    rw [List.getElem?_cons_succ] at he2b
    exact hB e2 (mem_of_getElem?_some he2b)
  have hwalk : mapWalk (A.length + (1 + (B.length + (1 + m)))) f v 0 (⟨some v, .notifying, 1, false, nr, A ++ e :: B, none, some e.id, pk⟩ : MapWorld T U) = (⟨some v, .notifying, 1, false, true, A ++ { e with active := false } :: B, none, none, pk⟩ : MapWorld T U) := by
    rw [mapWalk_skip f v A.length (1 + (B.length + (1 + m))) 0 (⟨some v, .notifying, 1, false, nr, A ++ e :: B, none, some e.id, pk⟩ : MapWorld T U) hskipA]
    rw [Nat.zero_add]
    rw [show 1 + (B.length + (1 + m)) = (B.length + (1 + m)) + 1 by omega]
    simp only [mapWalk]
    rw [hmid]
    show mapWalk (B.length + (1 + m)) f v (A.length + 1)
        (if (e.active && e.isRelay) = true
         then relayInvoke (B.length + (1 + m)) f v (⟨some v, .notifying, 1, false, nr, A ++ e :: B, none, some e.id, pk⟩ : MapWorld T U) else (⟨some v, .notifying, 1, false, nr, A ++ e :: B, none, some e.id, pk⟩ : MapWorld T U)) = _
    rw [if_pos he, hrelay]
    exact mapWalk_inert f v (B.length + (1 + m)) (A.length + 1) _ hinert
  have hsubs2 : (mapSet (A.length + (1 + (B.length + (1 + m)))) f v (dropDerived
      (⟨data0, .idling, 0, false, nr, A ++ e :: B, drv0, some e.id,
        pk⟩ : MapWorld T U))).2.subs =
      (A ++ { e with active := false } :: B).filter (fun e2 => e2.active) := by
    show (mRetain (mapWalk (A.length + (1 + (B.length + (1 + m)))) f v 0 (⟨some v, .notifying, 1, false, nr, A ++ e :: B, none, some e.id, pk⟩ : MapWorld T U))).subs = _
    rw [hwalk]
    rfl
  refine ⟨rfl, rfl, ?_, ?_, ?_, ?_⟩
  · show (mRetain (mapWalk (A.length + (1 + (B.length + (1 + m)))) f v 0 (⟨some v, .notifying, 1, false, nr, A ++ e :: B, none, some e.id, pk⟩ : MapWorld T U))).drv = none
    rw [hwalk]
    rfl
  · show (mRetain (mapWalk (A.length + (1 + (B.length + (1 + m)))) f v 0 (⟨some v, .notifying, 1, false, nr, A ++ e :: B, none, some e.id, pk⟩ : MapWorld T U))).relayTok = none
    rw [hwalk]
    rfl
  · show (mRetain (mapWalk (A.length + (1 + (B.length + (1 + m)))) f v 0 (⟨some v, .notifying, 1, false, nr, A ++ e :: B, none, some e.id, pk⟩ : MapWorld T U))).panicked = pk
    rw [hwalk]
    rfl
  · intro e2 hmem
    rw [hsubs2] at hmem
    obtain ⟨hmem2, hact⟩ := List.mem_filter.mp hmem
    rcases List.mem_append.mp hmem2 with hA2 | hC
    · intro hEq
      have hf := hAid e2 hA2
      rw [hEq] at hf
      simp at hf
    · rcases List.mem_cons.mp hC with hEq | hB2
      · rw [hEq] at hact
        simp at hact
      · intro hEq
        have hf := hBid e2 hB2
        rw [hEq] at hf
        simp at hf

/-- Concrete instantiation of the map law: a source holding `21` with the
single relay subscription of `d = s.map (* 2)` over an uninitialized
derived signal. -/
theorem c7_map_law_witness :
    ((⟨some 21, .idling, 0, false, false, [⟨0, true, true⟩], some
        (⟨.idling, 0, false, [], 0, false, none, [], [], false⟩ : World Nat),
        some 0, false⟩ : MapWorld Nat Nat).subs =
        [] ++ (⟨0, true, true⟩ : MEntry) :: [] ∧
      ¬(⟨.idling, 0, false, [], 0, false, none, [], [],
        false⟩ : World Nat).busy) ∧
    (mapSet 5 (fun x => x * 2) 21
      (⟨some 21, .idling, 0, false, false, [⟨0, true, true⟩], some
        (⟨.idling, 0, false, [], 0, false, none, [], [], false⟩ : World Nat),
        some 0, false⟩ : MapWorld Nat Nat)).1 = .ok () :=
  ⟨⟨rfl, by decide⟩,
    (c7_map_law 3 (fun x => x * 2) 21 _ [] [] ⟨0, true, true⟩
      (⟨.idling, 0, false, [], 0, false, none, [], [], false⟩ : World Nat)
      rfl (fun a ha => absurd ha (by simp)) (fun b hb => absurd hb (by simp))
      (by decide) rfl rfl rfl rfl (by decide) rfl (by decide) (by decide)).1⟩

/-- Concrete instantiation of the lazy detach: same source after the
derived signal was dropped. -/
theorem c10_lazy_detach_witness :
    ((⟨some 21, .idling, 0, false, false, [⟨0, true, true⟩], some
        (⟨.idling, 0, false, [], 0, false, none, [], [], false⟩ : World Nat),
        some 0, false⟩ : MapWorld Nat Nat).relayTok = some 0) ∧
    (mapSet 5 (fun x => x * 2) 21 (dropDerived
      (⟨some 21, .idling, 0, false, false, [⟨0, true, true⟩], some
        (⟨.idling, 0, false, [], 0, false, none, [], [], false⟩ : World Nat),
        some 0, false⟩ : MapWorld Nat Nat))).2.drv = none :=
  ⟨rfl,
    (c10_lazy_detach 3 (fun x => x * 2) 21 _ [] [] ⟨0, true, true⟩
      rfl (fun a ha => absurd ha (by simp)) (fun b hb => absurd hb (by simp))
      (by decide) (fun a ha => absurd ha (by simp)) (fun b hb => absurd hb (by simp))
      rfl rfl rfl rfl).2.2.1⟩

end Wasmadeus
